import Mathlib

/-!
# Verification of the stelar-etl planning core

Shallow embedding of the declarative reconciliation engine of
`src/stelar/etl` (`base.py`, `goal.py`): goal maps, the catalog tree,
the Kosaraju-style `strongly_connected_index` computation, `logical_plan`
and `reconcile`, together with proofs of the specified properties.

Module objects are identified by their (injective) fullnames; in the
graph-level development a catalog with `n` modules is embedded with the
modules numbered `Fin n` in enumeration order, and in the goal-map
development the keys of `Goal._goal` (fullnames) are an arbitrary
`DecidableEq` type.
-/

namespace Stelar

/-! ## Goal maps (`goal.py`, class `Goal`)

`Goal._goal` is a Python `dict` mapping a module fullname to the desired
boolean.  A `dict` is embedded as an association list without duplicate
keys; assignment to an existing key keeps its position, assignment to a
fresh key appends. -/

variable {α : Type} [DecidableEq α]

/-- Dictionary lookup: `self._goal[k]` / `k in self._goal`. -/
def lookupG (G : List (α × Bool)) (k : α) : Option Bool :=
  (G.find? (fun p => p.1 = k)).map (·.2)

/-- Dictionary assignment `G[k] = v`: update in place if the key exists,
append otherwise. -/
def dictInsert (G : List (α × Bool)) (k : α) (v : Bool) : List (α × Bool) :=
  if G.any (fun p => p.1 = k) then
    G.map (fun p => if p.1 = k then (k, v) else p)
  else G ++ [(k, v)]

/-- The keys of a goal dictionary are distinct (invariant of a Python dict). -/
def NodupKeys (G : List (α × Bool)) : Prop := (G.map Prod.fst).Nodup

/-- The single error raised by `Goal.set_goal` — in the specification's
taxonomy, `ConflictError` (the source raises `ValueError` at this site). -/
inductive SgErr : Type
  | conflict
deriving DecidableEq, Repr

/-- First loop of `Goal.set_goal` (`goal.py` lines 42-51): walk the resolved
module set, collecting `newinstalls`; a module already assigned the opposite
boolean raises (unless `force`), and the raise happens before any write.

`ms` is the flat module list `self._modset(req)` resolves the target to;
for a module target it is that one module, for a collection of modules it
is that collection flattened. -/
def sgCheck (G : List (α × Bool)) (ms : List α) (g force : Bool)
    (acc : List α) : Except SgErr (List α) :=
  match ms with
  | [] => .ok acc
  | m :: rest =>
    if ∃ v, lookupG G m = some v ∧ v ≠ g then
      if !force then .error .conflict
      else sgCheck G rest g force acc
    else sgCheck G rest g force (acc ++ [m])

/-- `Goal.set_goal` (`goal.py` lines 42-54).  Returns the goal mapping as it
is when the call ends together with the raised error, if any: the checking
loop runs entirely before the writing loop, so an exception leaves the
mapping untouched. -/
def set_goal (G : List (α × Bool)) (ms : List α) (g force : Bool) :
    List (α × Bool) × Option SgErr :=
  match sgCheck G ms g force [] with
  | .error e => (G, some e)
  | .ok newinstalls => (newinstalls.foldl (fun G' m => dictInsert G' m g) G, none)

/-- Loop body of `Goal.__or__` (`goal.py` lines 83-88): given the pair
(new mapping, conflicts so far) and one item of the other goal, record a
conflict, skip an equal assignment, or copy a fresh assignment. -/
def orStep (st : List (α × Bool) × List α) (kv : α × Bool) :
    List (α × Bool) × List α :=
  match lookupG st.1 kv.1 with
  | some v => if v ≠ kv.2 then (st.1, st.2 ++ [kv.1]) else st
  | none => (dictInsert st.1 kv.1 kv.2, st.2)

/-- Union-only part of the merge loop, used to state what the merged
mapping is. -/
def unionStep (g : List (α × Bool)) (kv : α × Bool) : List (α × Bool) :=
  match lookupG g kv.1 with
  | some _ => g
  | none => dictInsert g kv.1 kv.2

/-- `Goal.__or__` (`goal.py` lines 70-91): merge two goals over the same
catalog.  Copies the left mapping, walks the right one collecting every
conflicting key, and raises `ConflictError` with the full list after the
walk; otherwise returns the union. -/
def goalOr (a b : List (α × Bool)) : Except (List α) (List (α × Bool)) :=
  let r := b.foldl orStep (a, [])
  if r.2.isEmpty then .ok r.1 else .error r.2

/-- A fullname is assigned different booleans by the two goal mappings. -/
def Conflicting (a b : List (α × Bool)) (k : α) : Prop :=
  ∃ va vb, lookupG a k = some va ∧ lookupG b k = some vb ∧ va ≠ vb

end Stelar

namespace Stelar

/-! ## The catalog tree (`base.py`, classes `Catalog`, `Node`, `Package`, `Module`)

A catalog owns an ordered forest of named nodes; every node is either a
`Package` or a `Module` and owns an ordered mapping of child name → child.
The ordered child dictionaries are embedded as sibling-linked forests;
names (validated strings in the source) are embedded as numbers. -/

mutual
/-- A tree node: a `Module` or a `Package`, with its name and children. -/
inductive ENode : Type
  | emod (name : Nat) (children : EForest)
  | epkg (name : Nat) (children : EForest)
deriving DecidableEq

/-- An ordered child dictionary (`self.children` / `self.root`). -/
inductive EForest : Type
  | enil
  | econs (head : ENode) (tail : EForest)
deriving DecidableEq
end

/-- Name of a node (`self.name`). -/
def ename : ENode → Nat
  | .emod n _ => n
  | .epkg n _ => n

/-- Children of a node (`self.children`). -/
def echildren : ENode → EForest
  | .emod _ cs => cs
  | .epkg _ cs => cs

/-- `isinstance(obj, Package)` (a `Module` is not a `Package` in the source). -/
def isPackage : ENode → Bool
  | .emod _ _ => false
  | .epkg _ _ => true

/-- Replace the children of a node. -/
def withChildren : ENode → EForest → ENode
  | .emod n _, cs => .emod n cs
  | .epkg n _, cs => .epkg n cs

/-- Dictionary lookup `d[name]` / `name in d` on a child dictionary. -/
def findChild : EForest → Nat → Option ENode
  | .enil, _ => none
  | .econs c rest, n => if ename c = n then some c else findChild rest n

/-- Append a child at the end of a dictionary (Python dict insertion order). -/
def fappend : EForest → ENode → EForest
  | .enil, e => .econs e .enil
  | .econs c rest, e => .econs c (fappend rest e)

/-- Children dictionary of the node at a path from the root (`[]` is the
catalog root itself); `enil` when the path does not resolve (unreachable in
the uses below). -/
def childrenAtD : EForest → List Nat → EForest
  | f, [] => f
  | f, n :: p =>
    match findChild f n with
    | some nd => childrenAtD (echildren nd) p
    | none => .enil

/-- Replace the child of the given name, keeping its position. -/
def replaceChild : EForest → Nat → ENode → EForest
  | .enil, _, _ => .enil
  | .econs c rest, n, e =>
    if ename c = n then .econs e rest else .econs c (replaceChild rest n e)

/-- Mutating `obj.add(child)` at the node addressed by a path: append the
child to that node's dictionary (`[]` appends at the catalog root). -/
def addAt : List Nat → EForest → ENode → EForest
  | [], f, e => fappend f e
  | n :: p, f, e =>
    match findChild f n with
    | some c => replaceChild f n (withChildren c (addAt p (echildren c) e))
    | none => f

/-- Errors of `Catalog.get_package`: `NotAPackageError` (the source raises
`ValueError` "is not a package"), and the dead empty-name guard. -/
inductive GpErr : Type
  | notAPackage
  | emptyName
deriving DecidableEq

deriving instance DecidableEq for Except

/-- Loop of `Catalog.get_package` (`base.py` lines 93-106).  State: the
forest, the path of `obj` (the node whose `add` is used to attach created
packages; `[]` is the catalog) and the path of the dictionary `d` aliases
(`[]` is `self.root`).  In the creation branch the source does not advance
`d`, which is embedded faithfully by leaving `dPath` unchanged there. -/
def gpLoop (f : EForest) (objPath dPath : List Nat) :
    List Nat → Except GpErr (EForest × List Nat)
  | [] => .ok (f, objPath)
  | name :: rest =>
    match findChild (childrenAtD f dPath) name with
    | none =>
      let p := ENode.epkg name .enil
      gpLoop (addAt objPath f p) (objPath ++ [name]) dPath rest
    | some obj =>
      if isPackage obj then gpLoop f (dPath ++ [name]) (dPath ++ [name]) rest
      else .error .notAPackage

/-- `Catalog.get_package(fullname)` (`base.py` lines 86-107); the dotted
name is given already split into segments. -/
def get_package (f : EForest) (names : List Nat) : Except GpErr (EForest × List Nat) :=
  if names = [] then .error .emptyName
  else gpLoop f [] [] names

/-- `Package.modules` (`base.py` lines 261-272): yield each `Module` child,
and recurse into each `Package` child — `Module` sub-trees are not entered. -/
def pkgModules : EForest → List ENode
  | .enil => []
  | .econs (.emod n cs) rest => .emod n cs :: pkgModules rest
  | .econs (.epkg _ cs) rest => pkgModules cs ++ pkgModules rest

/-- `Catalog.modules` (`base.py` lines 109-120): same traversal over the
catalog root. -/
def catalogModules : EForest → List ENode
  | .enil => []
  | .econs (.emod n cs) rest => .emod n cs :: catalogModules rest
  | .econs (.epkg _ cs) rest => pkgModules cs ++ catalogModules rest

/-- A `Module` node reachable from the root when the traversal recurses both
into `Package` children and into `Module` sub-trees (the claim's notion of
"every Module reachable from the catalog root"). -/
inductive ReachAllMod : EForest → ENode → Prop
  | here (n : Nat) (cs : EForest) (rest : EForest) :
      ReachAllMod (.econs (.emod n cs) rest) (.emod n cs)
  | intoChildren (c : ENode) (rest : EForest) (m : ENode) :
      ReachAllMod (echildren c) m → ReachAllMod (.econs c rest) m
  | there (c : ENode) (rest : EForest) (m : ENode) :
      ReachAllMod rest m → ReachAllMod (.econs c rest) m

/-- A `Module` node reachable from the root when the traversal recurses into
`Package` children only. -/
inductive ReachPkgMod : EForest → ENode → Prop
  | here (n : Nat) (cs : EForest) (rest : EForest) :
      ReachPkgMod (.econs (.emod n cs) rest) (.emod n cs)
  | intoPkg (n : Nat) (cs : EForest) (rest : EForest) (m : ENode) :
      ReachPkgMod cs m → ReachPkgMod (.econs (.epkg n cs) rest) m
  | there (c : ENode) (rest : EForest) (m : ENode) :
      ReachPkgMod rest m → ReachPkgMod (.econs c rest) m

end Stelar

namespace Stelar

/-! ### Lemmas about goal maps -/

variable {α : Type} [DecidableEq α]

theorem find?_map_update (G : List (α × Bool)) (k : α) (v : Bool)
    (h : ∃ p ∈ G, p.1 = k) :
    List.find? (fun p => p.1 = k) (G.map (fun p => if p.1 = k then (k, v) else p))
      = some (k, v) := by
  induction G with
  | nil => simp at h
  | cons q G ih =>
    by_cases hq : q.1 = k
    · simp [List.find?_cons_of_pos, hq]
    · rw [List.map_cons, if_neg hq, List.find?_cons_of_neg _ (by simp [hq])]
      refine ih ?_
      obtain ⟨p, hp, hpk⟩ := h
      rcases List.mem_cons.mp hp with rfl | hp
      · exact absurd hpk hq
      · exact ⟨p, hp, hpk⟩

theorem lookupG_dictInsert_self (G : List (α × Bool)) (k : α) (v : Bool) :
    lookupG (dictInsert G k v) k = some v := by
  unfold lookupG dictInsert
  split
  · next h =>
    rw [List.any_eq_true] at h
    obtain ⟨p, hp, hpk⟩ := h
    simp only [decide_eq_true_eq] at hpk
    rw [find?_map_update G k v ⟨p, hp, hpk⟩]
    rfl
  · next h =>
    rw [List.any_eq_true] at h
    push_neg at h
    rw [List.find?_append, List.find?_eq_none.mpr, Option.none_or,
      List.find?_cons_of_pos _ (by simp)]
    · rfl
    · intro p hp
      simpa using fun hc => (h p hp) (by simp [hc])

theorem find?_map_update_ne (G : List (α × Bool)) (k k' : α) (v : Bool)
    (h : k' ≠ k) :
    List.find? (fun p => p.1 = k') (G.map (fun p => if p.1 = k then (k, v) else p))
      = List.find? (fun p => p.1 = k') G := by
  induction G with
  | nil => simp
  | cons q G ih =>
    by_cases hq : q.1 = k
    · rw [List.map_cons, if_pos hq,
        List.find?_cons_of_neg _ (by simp [Ne.symm h]),
        List.find?_cons_of_neg _ (by simp [hq, Ne.symm h]), ih]
    · rw [List.map_cons, if_neg hq]
      by_cases hq' : q.1 = k'
      · rw [List.find?_cons_of_pos _ (by simp [hq']),
          List.find?_cons_of_pos _ (by simp [hq'])]
      · rw [List.find?_cons_of_neg _ (by simp [hq']),
          List.find?_cons_of_neg _ (by simp [hq']), ih]

theorem lookupG_dictInsert_ne (G : List (α × Bool)) (k k' : α) (v : Bool)
    (h : k' ≠ k) : lookupG (dictInsert G k v) k' = lookupG G k' := by
  unfold lookupG dictInsert
  split
  · rw [find?_map_update_ne G k k' v h]
  · rw [List.find?_append,
      show List.find? (fun p => decide (p.1 = k')) [(k, v)] = none from
        List.find?_eq_none.mpr (fun p hp => by
          simp only [List.mem_singleton] at hp
          simp [hp, Ne.symm h]),
      Option.or_none]

end Stelar

namespace Stelar

variable {α : Type} [DecidableEq α]

theorem lookupG_eq_some_of_mem (b : List (α × Bool)) (hb : NodupKeys b)
    {k : α} {v : Bool} (h : (k, v) ∈ b) : lookupG b k = some v := by
  induction b with
  | nil => simp at h
  | cons q b ih =>
    rcases List.mem_cons.mp h with rfl | h
    · simp [lookupG, List.find?_cons_of_pos]
    · have hq : q.1 ≠ k := by
        intro hc
        have hmem : k ∈ b.map Prod.fst := List.mem_map.mpr ⟨(k, v), h, rfl⟩
        rw [NodupKeys, List.map_cons, List.nodup_cons, hc] at hb
        exact hb.1 hmem
      have hih := ih (by
        rw [NodupKeys, List.map_cons, List.nodup_cons] at hb
        exact hb.2) h
      unfold lookupG at hih ⊢
      rw [List.find?_cons_of_neg _ (by simp [hq])]
      exact hih

theorem mem_of_lookupG_eq_some (b : List (α × Bool))
    {k : α} {v : Bool} (h : lookupG b k = some v) : (k, v) ∈ b := by
  unfold lookupG at h
  cases hf : b.find? (fun p => p.1 = k) with
  | none => rw [hf] at h; simp at h
  | some p =>
    rw [hf] at h
    have hm := List.mem_of_find?_eq_some hf
    have hk := List.find?_some hf
    simp only [decide_eq_true_eq] at hk
    have hpv : p.2 = v := by
      rw [show ((some p).map (·.2)) = some p.2 from rfl] at h
      exact Option.some_inj.mp h
    have : p = (k, v) := by
      cases p; simp_all
    rwa [this] at hm

theorem orStep_lookup_some (ng : List (α × Bool)) (cf : List α) (k₀ : α) (v₀ v : Bool)
    (hng : lookupG ng k₀ = some v) :
    orStep (ng, cf) (k₀, v₀) = if v ≠ v₀ then (ng, cf ++ [k₀]) else (ng, cf) := by
  unfold orStep
  rw [hng]

theorem orStep_lookup_none (ng : List (α × Bool)) (cf : List α) (k₀ : α) (v₀ : Bool)
    (hng : lookupG ng k₀ = none) :
    orStep (ng, cf) (k₀, v₀) = (dictInsert ng k₀ v₀, cf) := by
  unfold orStep
  rw [hng]

theorem goalOr_fold_spec (r : List (α × Bool)) (ng : List (α × Bool)) (cf : List α)
    (hr : (r.map Prod.fst).Nodup) :
    r.foldl orStep (ng, cf) =
      (r.foldl unionStep ng,
       cf ++ (r.filter (fun kv =>
          decide (∃ v, lookupG ng kv.1 = some v ∧ v ≠ kv.2))).map Prod.fst) := by
  induction r generalizing ng cf with
  | nil => simp
  | cons kv r ih =>
    obtain ⟨k₀, v₀⟩ := kv
    rw [List.map_cons, List.nodup_cons] at hr
    have hr' : (r.map Prod.fst).Nodup := hr.2
    have hk₀ : k₀ ∉ r.map Prod.fst := hr.1
    rw [List.foldl_cons, List.foldl_cons, List.filter_cons]
    cases hng : lookupG ng k₀ with
    | some v =>
      have hus : unionStep ng (k₀, v₀) = ng := by unfold unionStep; rw [hng]
      rw [orStep_lookup_some ng cf k₀ v₀ v hng, hus]
      by_cases hv : v = v₀
      · subst hv
        rw [if_neg (by simp), ih ng cf hr', if_neg (by simp)]
      · rw [if_pos (by simpa using hv), ih ng (cf ++ [k₀]) hr',
          if_pos (by simp only [decide_eq_true_eq]; exact ⟨v, rfl, hv⟩)]
        simp
    | none =>
      have hus : unionStep ng (k₀, v₀) = dictInsert ng k₀ v₀ := by
        unfold unionStep; rw [hng]
      rw [orStep_lookup_none ng cf k₀ v₀ hng, hus, ih (dictInsert ng k₀ v₀) cf hr',
        if_neg (by simp)]
      have hfil : r.filter (fun kv =>
            decide (∃ v, lookupG (dictInsert ng k₀ v₀) kv.1 = some v ∧ v ≠ kv.2)) =
          r.filter (fun kv => decide (∃ v, lookupG ng kv.1 = some v ∧ v ≠ kv.2)) := by
        apply List.filter_congr
        intro p hp
        have hpk : p.1 ≠ k₀ := by
          intro hc
          exact hk₀ (List.mem_map.mpr ⟨p, hp, hc⟩)
        rw [lookupG_dictInsert_ne ng k₀ p.1 v₀ hpk]
      rw [hfil]

theorem goalOr_union_lookup (r : List (α × Bool)) (ng : List (α × Bool)) (k : α) :
    lookupG (r.foldl unionStep ng) k =
      match lookupG ng k with
      | some v => some v
      | none => lookupG r k := by
  induction r generalizing ng with
  | nil =>
    rw [List.foldl_nil]
    cases h : lookupG ng k <;> rfl
  | cons kv r ih =>
    obtain ⟨k₀, v₀⟩ := kv
    rw [List.foldl_cons]
    cases hng : lookupG ng k₀ with
    | some v =>
      have hus : unionStep ng (k₀, v₀) = ng := by unfold unionStep; rw [hng]
      rw [hus, ih ng]
      by_cases hk : k = k₀
      · subst hk
        rw [hng]
      · have hcons : lookupG ((k₀, v₀) :: r) k = lookupG r k := by
          unfold lookupG
          rw [List.find?_cons_of_neg _ (by simp [Ne.symm hk])]
        rw [hcons]
    | none =>
      have hus : unionStep ng (k₀, v₀) = dictInsert ng k₀ v₀ := by
        unfold unionStep; rw [hng]
      rw [hus, ih (dictInsert ng k₀ v₀)]
      by_cases hk : k = k₀
      · subst hk
        rw [lookupG_dictInsert_self, hng]
        have hcons : lookupG ((k, v₀) :: r) k = some v₀ := by
          unfold lookupG
          rw [List.find?_cons_of_pos _ (by simp)]
          rfl
        rw [hcons]
      · rw [lookupG_dictInsert_ne ng k₀ k v₀ hk]
        have hcons : lookupG ((k₀, v₀) :: r) k = lookupG r k := by
          unfold lookupG
          rw [List.find?_cons_of_neg _ (by simp [Ne.symm hk])]
        rw [hcons]

/-- Claim C5: for every goal mapping and module already assigned a desired
boolean, calling `set_goal` with the opposite boolean and `force` not given
fails with `ConflictError`. -/
theorem set_goal_opposite_conflicts (G : List (α × Bool)) (m : α) (g : Bool)
    (h : lookupG G m = some (!g)) :
    (set_goal G [m] g false).2 = some SgErr.conflict := by
  unfold set_goal sgCheck
  rw [if_pos ⟨!g, h, by simp⟩]
  simp

/-- Witness for C5 at a concrete input. -/
theorem set_goal_opposite_conflicts_witness :
    lookupG [((0 : Nat), false)] 0 = some (!true) ∧
      (set_goal [((0 : Nat), false)] [0] true false).2 = some SgErr.conflict :=
  ⟨by simp [lookupG, List.find?], set_goal_opposite_conflicts _ 0 true (by simp [lookupG, List.find?])⟩

/-- Claim C6 counterexample: with `force` set, `set_goal` does not overwrite
the opposite assignment — the mapping still holds the old boolean afterwards.
Here module `0` is assigned `false`, `set_goal` asks for `true` with `force`,
and afterwards the mapping still assigns `false`. -/
theorem set_goal_force_cex :
    (set_goal [((0 : Nat), false)] [0] true true).2 = none ∧
      lookupG (set_goal [((0 : Nat), false)] [0] true true).1 0 = some false := by
  constructor <;> rfl

/-- Claim C6 as amended: calling `set_goal` with `force` set on a module whose
recorded boolean differs from the new one succeeds (no error), but records
nothing: the goal mapping is returned unchanged, still holding the previous
boolean (the conflicting module is excluded from `newinstalls`). -/
theorem set_goal_force_leaves_assignment (G : List (α × Bool)) (m : α) (g : Bool)
    (h : lookupG G m = some (!g)) :
    set_goal G [m] g true = (G, none) := by
  have hc : sgCheck G [m] g true [] = .ok [] := by
    unfold sgCheck
    rw [if_pos ⟨!g, h, by simp⟩]
    rfl
  unfold set_goal
  rw [hc]
  rfl

/-- Witness for the amended C6 at a concrete input. -/
theorem set_goal_force_leaves_assignment_witness :
    lookupG [((0 : Nat), false)] 0 = some (!true) ∧
      set_goal [((0 : Nat), false)] [0] true true = ([((0 : Nat), false)], none) :=
  ⟨by simp [lookupG, List.find?],
    set_goal_force_leaves_assignment _ 0 true (by simp [lookupG, List.find?])⟩

/-- Claim C10: `set_goal` is atomic on error — when the call raises (a
resolved module carries the opposite assignment and `force` is not set),
the goal mapping is exactly as before the call: no assignment from the
call, including for non-conflicting modules of the same collection, is
recorded (the checking loop runs entirely before the writing loop). -/
theorem set_goal_error_atomic (G : List (α × Bool)) (ms : List α) (g : Bool)
    (e : SgErr) (h : (set_goal G ms g false).2 = some e) :
    (set_goal G ms g false).1 = G := by
  unfold set_goal at *
  cases hc : sgCheck G ms g false [] with
  | error e' => rfl
  | ok l => rw [hc] at h; simp at h

/-- Witness for C10: a two-module collection whose second member conflicts;
the call raises and the non-conflicting first member is not recorded. -/
theorem set_goal_error_atomic_witness :
    (set_goal [((0 : Nat), false)] [1, 0] true false).2 = some SgErr.conflict ∧
      (set_goal [((0 : Nat), false)] [1, 0] true false).1 = [((0 : Nat), false)] :=
  ⟨by rfl, set_goal_error_atomic _ [1, 0] true SgErr.conflict (by rfl)⟩

/-- Claim C7: merging two goal mappings (over one catalog) with some module
assigned different booleans in the two goals always fails, with
`ConflictError` listing exactly the conflicting modules; when no module
differs it returns the union of the two mappings. -/
theorem goal_merge_spec (a b : List (α × Bool))
    (ha : NodupKeys a) (hb : NodupKeys b) :
    ((∃ k, Conflicting a b k) →
        ∃ L, goalOr a b = .error L ∧ L ≠ [] ∧ ∀ k, k ∈ L ↔ Conflicting a b k) ∧
      ((∀ k, ¬ Conflicting a b k) →
        ∃ ng, goalOr a b = .ok ng ∧
          ∀ k v, lookupG ng k = some v ↔ (lookupG a k = some v ∨ lookupG b k = some v)) := by
  have hGor : goalOr a b =
      (if (b.foldl orStep (a, [])).2.isEmpty then Except.ok (b.foldl orStep (a, [])).1
       else Except.error (b.foldl orStep (a, [])).2) := rfl
  have hfold := goalOr_fold_spec b a [] hb
  rw [List.nil_append] at hfold
  have hcf : ∀ k, (k ∈ (b.filter (fun kv =>
        decide (∃ v, lookupG a kv.1 = some v ∧ v ≠ kv.2))).map Prod.fst) ↔
      Conflicting a b k := by
    intro k
    constructor
    · intro hk
      obtain ⟨kv, hkv, rfl⟩ := List.mem_map.mp hk
      rw [List.mem_filter] at hkv
      obtain ⟨hmem, hdec⟩ := hkv
      rw [decide_eq_true_eq] at hdec
      obtain ⟨v, hv, hne⟩ := hdec
      exact ⟨v, kv.2, hv, lookupG_eq_some_of_mem b hb hmem, hne⟩
    · rintro ⟨va, vb, hva, hvb, hne⟩
      refine List.mem_map.mpr ⟨(k, vb), ?_, rfl⟩
      rw [List.mem_filter]
      exact ⟨mem_of_lookupG_eq_some b hvb,
        by simp only [decide_eq_true_eq]; exact ⟨va, hva, hne⟩⟩
  constructor
  · rintro ⟨k0, hk0⟩
    have hk0mem : k0 ∈ (b.filter (fun kv =>
        decide (∃ v, lookupG a kv.1 = some v ∧ v ≠ kv.2))).map Prod.fst :=
      (hcf k0).mpr hk0
    have hLne : ((b.filter (fun kv =>
        decide (∃ v, lookupG a kv.1 = some v ∧ v ≠ kv.2))).map Prod.fst) ≠ [] := by
      intro hnil
      rw [hnil] at hk0mem
      cases hk0mem
    refine ⟨_, ?_, hLne, hcf⟩
    rw [hGor, hfold]
    dsimp only
    rw [if_neg ?_]
    rw [List.isEmpty_iff]
    exact hLne
  · intro hnc
    have hempty : ((b.filter (fun kv =>
        decide (∃ v, lookupG a kv.1 = some v ∧ v ≠ kv.2))).map Prod.fst) = ([] : List α) := by
      rw [List.map_eq_nil_iff, List.filter_eq_nil_iff]
      intro kv hkv
      simp only [decide_eq_true_eq, not_exists, not_and]
      intro v hv hne
      exact hnc kv.1 ⟨v, kv.2, hv, lookupG_eq_some_of_mem b hb hkv, hne⟩
    rw [hGor, hfold]
    dsimp only
    rw [if_pos (by rw [hempty]; rfl)]
    refine ⟨_, rfl, ?_⟩
    intro k v
    rw [goalOr_union_lookup b a k]
    cases hak : lookupG a k with
    | some va =>
      constructor
      · intro h1
        exact Or.inl h1
      · rintro (h1 | hbk)
        · exact h1
        · have hva : va = v := by
            by_contra hne
            exact hnc k ⟨va, v, hak, hbk, hne⟩
          rw [hva]
    | none =>
      constructor
      · intro hb'
        exact Or.inr hb'
      · rintro (h' | h')
        · exact absurd h' (by simp)
        · exact h'

/-- Witness for C7 at concrete inputs: a conflicting pair of goals really
produces the error with exactly the conflicting module listed, and a
compatible pair really merges to the union. -/
theorem goal_merge_spec_witness :
    (∃ L, goalOr [((0 : Nat), true)] [(0, false), (1, true)] = .error L ∧ L ≠ [] ∧
        ∀ k, k ∈ L ↔ Conflicting [((0 : Nat), true)] [(0, false), (1, true)] k) ∧
      (∃ ng, goalOr [((0 : Nat), true)] [(1, true)] = .ok ng ∧
        ∀ k v, lookupG ng k = some v ↔
          (lookupG [((0 : Nat), true)] k = some v ∨ lookupG [(1, true)] k = some v)) := by
  constructor
  · refine (goal_merge_spec [((0 : Nat), true)] [(0, false), (1, true)]
      (by simp [NodupKeys]) (by simp [NodupKeys])).1 ?_
    exact ⟨0, true, false, rfl, rfl, by decide⟩
  · refine (goal_merge_spec [((0 : Nat), true)] [(1, true)]
      (by simp [NodupKeys]) (by simp [NodupKeys])).2 ?_
    rintro k ⟨va, vb, hva, hvb, hne⟩
    have h0 : ((k, va) : Nat × Bool) ∈ [((0 : Nat), true)] :=
      mem_of_lookupG_eq_some _ hva
    have h1 : ((k, vb) : Nat × Bool) ∈ [((1 : Nat), true)] :=
      mem_of_lookupG_eq_some _ hvb
    rw [List.mem_singleton] at h0 h1
    have hk0 : k = 0 := congrArg Prod.fst h0
    have hk1 : k = 1 := congrArg Prod.fst h1
    omega

end Stelar

namespace Stelar

/-! ### The catalog tree: module enumeration and `get_package` -/

theorem catalogModules_eq_pkgModules : ∀ f : EForest, catalogModules f = pkgModules f := by
  refine EForest.rec (motive_1 := fun _ => True)
    (motive_2 := fun f => catalogModules f = pkgModules f) ?_ ?_ ?_ ?_
  · intro _ _ _; trivial
  · intro _ _ _; trivial
  · rfl
  · intro c rest _ ihr
    cases c with
    | emod n cs =>
      show ENode.emod n cs :: catalogModules rest = ENode.emod n cs :: pkgModules rest
      rw [ihr]
    | epkg n cs =>
      show pkgModules cs ++ catalogModules rest = pkgModules cs ++ pkgModules rest
      rw [ihr]

theorem pkgModules_mem : ∀ (f : EForest) (m : ENode),
    m ∈ pkgModules f ↔ ReachPkgMod f m := by
  refine EForest.rec
    (motive_1 := fun c => ∀ m, m ∈ pkgModules (echildren c) ↔ ReachPkgMod (echildren c) m)
    (motive_2 := fun f => ∀ m, m ∈ pkgModules f ↔ ReachPkgMod f m) ?_ ?_ ?_ ?_
  · intro _ cs ih; exact ih
  · intro _ cs ih; exact ih
  · intro m
    constructor
    · intro h; exact absurd h (by simp [pkgModules])
    · intro h; cases h
  · intro c rest ihc ihr m
    cases c with
    | emod n cs =>
      show m ∈ ENode.emod n cs :: pkgModules rest ↔ _
      constructor
      · intro h
        rcases List.mem_cons.mp h with rfl | h
        · exact ReachPkgMod.here n cs rest
        · exact ReachPkgMod.there _ rest m ((ihr m).mp h)
      · intro h
        cases h with
        | here => exact List.mem_cons_self _ _
        | there _ _ _ h => exact List.mem_cons_of_mem _ ((ihr m).mpr h)
    | epkg n cs =>
      show m ∈ pkgModules cs ++ pkgModules rest ↔ _
      rw [List.mem_append]
      constructor
      · intro h
        rcases h with h | h
        · exact ReachPkgMod.intoPkg n cs rest m ((ihc m).mp h)
        · exact ReachPkgMod.there _ rest m ((ihr m).mp h)
      · intro h
        cases h with
        | intoPkg _ _ _ _ h => exact Or.inl ((ihc m).mpr h)
        | there _ _ _ h => exact Or.inr ((ihr m).mpr h)

/-- Claim C8 counterexample: a catalog whose single root entry is a `Module`
with one sub-module.  The sub-module is a `Module` reachable from the
catalog root (recursing into the `Module` sub-tree), but `Catalog.modules()`
does not yield it: the traversal recurses into `Package` children only. -/
theorem catalog_modules_cex :
    ReachAllMod (.econs (.emod 0 (.econs (.emod 1 .enil) .enil)) .enil) (.emod 1 .enil) ∧
      (ENode.emod 1 .enil) ∉
        catalogModules (.econs (.emod 0 (.econs (.emod 1 .enil) .enil)) .enil) :=
  ⟨ReachAllMod.intoChildren _ _ _ (ReachAllMod.here 1 .enil .enil), by decide⟩

/-- Claim C8 as amended: `Catalog.modules()` yields exactly the `Module`
entries reachable from the catalog root by recursing into `Package` children
only; descendant sub-modules of `Module` entries are not yielded. -/
theorem catalog_modules_spec (f : EForest) (m : ENode) :
    m ∈ catalogModules f ↔ ReachPkgMod f m := by
  rw [catalogModules_eq_pkgModules f]
  exact pkgModules_mem f m

/-- Claim C9: `get_package` does not always return the package at the final
segment.  On an empty catalog, `get_package` for the dotted name with
segments `[0, 0]` ("a.a") creates the top-level package `0` and then, because
the source never re-points the dictionary alias `d` at the freshly created
package's children, finds the segment `0` in the stale root dictionary and
returns the top-level package itself (path `[0]`) — not a package at path
`[0, 0]`, which is never created. -/
theorem get_package_stale_dict_bug :
    get_package .enil [0, 0] = .ok (.econs (.epkg 0 .enil) .enil, [0]) ∧
      get_package .enil [0, 0] ≠
        .ok (.econs (.epkg 0 (.econs (.epkg 0 .enil) .enil)) .enil, [0, 0]) :=
  ⟨rfl, by decide⟩

end Stelar

namespace Stelar

/-! ## The dependency graph and `strongly_connected_index`
(`base.py` lines 554-626)

A catalog's modules are numbered `Fin n` in the order `catalog.modules()`
enumerates them; `enabled` and `required` give each module's edge sets
(Python sets, embedded as lists in iteration order).  The graph of a
well-formed catalog keeps the two relations mutually inverse (invariant of
`Module.require`). -/

variable {n : Nat}

/-- One edge step: `y ∈ succ x`. -/
def Step (succ : Fin n → List (Fin n)) (x y : Fin n) : Prop := y ∈ succ x

/-- Reachability along edges of `succ` (reflexive-transitive). -/
def Reach (succ : Fin n → List (Fin n)) : Fin n → Fin n → Prop :=
  Relation.ReflTransGen (Step succ)

/-- Inner `for` loop body of `transitive_closure` (`base.py` lines 562-567):
conditionally add one successor to the set and schedule it. -/
def tcStep (p : Finset (Fin n) × List (Fin n)) (x : Fin n) :
    Finset (Fin n) × List (Fin n) :=
  if x ∈ p.1 then p else (insert x p.1, p.2 ++ [x])

theorem tcStep_fold_subset (xs : List (Fin n)) (p : Finset (Fin n) × List (Fin n)) :
    p.1 ⊆ (xs.foldl tcStep p).1 := by
  induction xs generalizing p with
  | nil => exact subset_rfl
  | cons x xs ih =>
    rw [List.foldl_cons]
    refine Finset.Subset.trans ?_ (ih (tcStep p x))
    unfold tcStep
    split
    · exact subset_rfl
    · exact Finset.subset_insert _ _

theorem tcStep_fold_length (xs : List (Fin n)) (p : Finset (Fin n) × List (Fin n)) :
    p.2.length ≤ (xs.foldl tcStep p).2.length := by
  induction xs generalizing p with
  | nil => exact le_rfl
  | cons x xs ih =>
    rw [List.foldl_cons]
    refine le_trans ?_ (ih (tcStep p x))
    unfold tcStep
    split
    · exact le_rfl
    · simp

theorem tcStep_fold_nil (xs : List (Fin n)) (p : Finset (Fin n) × List (Fin n)) :
    (xs.foldl tcStep p).2 = p.2 → (xs.foldl tcStep p).1 = p.1 := by
  induction xs generalizing p with
  | nil => intro _; rfl
  | cons x xs ih =>
    rw [List.foldl_cons]
    by_cases hx : x ∈ p.1
    · have hstep : tcStep p x = p := by unfold tcStep; rw [if_pos hx]
      rw [hstep]
      exact ih p
    · have hstep : tcStep p x = (insert x p.1, p.2 ++ [x]) := by
        unfold tcStep; rw [if_neg hx]
      rw [hstep]
      intro h
      have hmono := tcStep_fold_length xs (insert x p.1, p.2 ++ [x])
      rw [h] at hmono
      simp at hmono

theorem tcStep_fold_ssubset (xs : List (Fin n)) (p : Finset (Fin n) × List (Fin n))
    (h : (xs.foldl tcStep p).2 ≠ p.2) : p.1 ⊂ (xs.foldl tcStep p).1 := by
  induction xs generalizing p with
  | nil => exact absurd rfl h
  | cons x xs ih =>
    rw [List.foldl_cons] at h ⊢
    by_cases hx : x ∈ p.1
    · have hstep : tcStep p x = p := by unfold tcStep; rw [if_pos hx]
      rw [hstep] at h ⊢
      exact ih p h
    · have hstep : tcStep p x = (insert x p.1, p.2 ++ [x]) := by
        unfold tcStep; rw [if_neg hx]
      rw [hstep] at h ⊢
      refine Finset.ssubset_of_ssubset_of_subset ?_ (tcStep_fold_subset xs _)
      exact Finset.ssubset_insert hx

/-- Worklist loop of `transitive_closure` (`base.py` lines 554-568): pop the
front of the queue, walk the popped module's edge set adding unseen modules
to the set and the back of the queue. -/
def tcLoop (f : Fin n → List (Fin n)) (Q : List (Fin n)) (S : Finset (Fin n)) :
    Finset (Fin n) :=
  match Q with
  | [] => S
  | m :: Q2 =>
    let r := (f m).foldl tcStep (S, [])
    tcLoop f (Q2 ++ r.2) r.1
termination_by ((Finset.univ \ S).card, Q.length)
decreasing_by
  rcases eq_or_ne ((f m).foldl tcStep (S, ([] : List (Fin n)))).2 [] with hnil | hne
  · have h1 : ((f m).foldl tcStep (S, ([] : List (Fin n)))).1 = S :=
      tcStep_fold_nil _ _ hnil
    apply Prod.Lex.right'
    · rw [h1]
    · rw [hnil]
      simp
  · apply Prod.Lex.left
    have hss : S ⊂ ((f m).foldl tcStep (S, ([] : List (Fin n)))).1 :=
      tcStep_fold_ssubset _ _ hne
    rw [Finset.card_sdiff (Finset.subset_univ _), Finset.card_sdiff (Finset.subset_univ _)]
    have h1 : S.card < ((f m).foldl tcStep (S, ([] : List (Fin n)))).1.card :=
      Finset.card_lt_card hss
    have h2 : ((f m).foldl tcStep (S, ([] : List (Fin n)))).1.card ≤ (Finset.univ : Finset (Fin n)).card :=
      Finset.card_le_card (Finset.subset_univ _)
    omega

/-- `transitive_closure(S, f)` (`base.py` lines 554-568): the worklist starts
as the elements of `S` (a Python set, iterated here in index order). -/
def transitive_closure (S : Finset (Fin n)) (f : Fin n → List (Fin n)) :
    Finset (Fin n) :=
  tcLoop f (S.sort (· ≤ ·)) S


/-- Auxiliary cardinality bound for termination of the traversals. -/
theorem card_sdiff_lt_of_not_mem {n : Nat} {V : Finset (Fin n)} {v : Fin n}
    (hv : v ∉ V) : (Finset.univ \ insert v V).card < (Finset.univ \ V).card := by
  rw [Finset.card_sdiff (Finset.subset_univ _), Finset.card_sdiff (Finset.subset_univ _)]
  have h1 : V.card < (insert v V).card := by
    rw [Finset.card_insert_of_not_mem hv]
    omega
  have h2 : (insert v V).card ≤ (Finset.univ : Finset (Fin n)).card :=
    Finset.card_le_card (Finset.subset_univ _)
  omega

/-- Auxiliary cardinality bound for termination of the traversals. -/
theorem card_sdiff_lt_of_ssubset {n : Nat} {A B : Finset (Fin n)} (h : A ⊂ B) :
    (Finset.univ \ B).card < (Finset.univ \ A).card := by
  rw [Finset.card_sdiff (Finset.subset_univ _), Finset.card_sdiff (Finset.subset_univ _)]
  have h1 : A.card < B.card := Finset.card_lt_card h
  have h2 : B.card ≤ (Finset.univ : Finset (Fin n)).card :=
    Finset.card_le_card (Finset.subset_univ _)
  omega

/-- Stack commands of the first pass of `strongly_connected_index`
(`base.py` lines 592-608): `('visit', m)` and `('push', m)`. -/
inductive Cmd (n : Nat) : Type
  | visit (m : Fin n)
  | push (m : Fin n)
deriving DecidableEq

/-- First pass of `strongly_connected_index` (`base.py` lines 592-608): an
explicit-stack depth-first traversal of the `enabled` edges.  The stack top
is the list head; Python appends each successor and pops from the right, so
a visited module's successors go on top in reversed order above its `push`
mark, and a popped `push` mark appends the pair `(m, m)` to `L`. -/
def pass1Loop (succ : Fin n → List (Fin n)) (S : List (Cmd n))
    (V : Finset (Fin n)) (L : List (Fin n × Fin n)) : List (Fin n × Fin n) :=
  match S with
  | [] => L
  | .push m :: S2 => pass1Loop succ S2 V (L ++ [(m, m)])
  | .visit m :: S2 =>
    if m ∈ V then pass1Loop succ S2 V L
    else pass1Loop succ (((succ m).reverse.map .visit) ++ .push m :: S2)
      (insert m V) L
termination_by ((Finset.univ \ V).card, S.length)
decreasing_by
  · apply Prod.Lex.right'
    · exact le_rfl
    · simp
  · apply Prod.Lex.right'
    · exact le_rfl
    · simp
  · exact Prod.Lex.left _ _ (card_sdiff_lt_of_not_mem (by assumption))

/-- Recursive form of the first pass: depth-first search over `succ` from a
worklist, returning the visited set and the appended finish list; the
visited set grows, which the result type records for termination. -/
def dfsAux (succ : Fin n → List (Fin n)) (vs : List (Fin n))
    (V : Finset (Fin n)) (L : List (Fin n × Fin n)) :
    {r : Finset (Fin n) × List (Fin n × Fin n) // V ⊆ r.1} :=
  match vs with
  | [] => ⟨(V, L), Finset.Subset.refl V⟩
  | v :: vs2 =>
    if hv : v ∈ V then dfsAux succ vs2 V L
    else
      let r1 := dfsAux succ ((succ v).reverse) (insert v V) L
      let r2 := dfsAux succ vs2 r1.1.1 (r1.1.2 ++ [(v, v)])
      ⟨r2.1, le_trans (le_trans (Finset.subset_insert v V) r1.2) r2.2⟩
termination_by ((Finset.univ \ V).card, vs.length)
decreasing_by
  · apply Prod.Lex.right'
    · exact le_rfl
    · simp
  · exact Prod.Lex.left _ _ (card_sdiff_lt_of_not_mem (by assumption))
  · exact Prod.Lex.left _ _ (card_sdiff_lt_of_ssubset
      (Finset.ssubset_of_ssubset_of_subset (Finset.ssubset_insert (by assumption)) r1.2))

/-- Depth-first search forests: a node's children forest, then its sibling
forest (specification structure for the first pass). -/
inductive Forest (n : Nat) : Type
  | nil
  | node (v : Fin n) (children : Forest n) (sibs : Forest n)

/-- Postorder listing of a forest, chronological finish order: children,
then the node, then the later trees. -/
def Forest.PO : Forest n → List (Fin n)
  | .nil => []
  | .node v c s => Forest.PO c ++ v :: Forest.PO s

/-- Roots of the trees of a forest, in traversal order. -/
def Forest.roots : Forest n → List (Fin n)
  | .nil => []
  | .node v _ s => v :: Forest.roots s

/-- `IsDFSForest`-style specification: `DFSF succ i o F` holds when a
depth-first traversal of `succ` starting with visited set `i` can produce
the forest `F` and end with visited set `o`: each node is unvisited when
reached, its children forest explores exactly unvisited successors (every
successor is visited when the subtree completes), and its sibling forest
continues from there. -/
inductive DFSF (succ : Fin n → List (Fin n)) :
    Finset (Fin n) → Finset (Fin n) → Forest n → Prop
  | nil (i : Finset (Fin n)) : DFSF succ i i .nil
  | node (i m o : Finset (Fin n)) (v : Fin n) (c s : Forest n)
      (hv : v ∉ i)
      (hc : DFSF succ (insert v i) m c)
      (hroots : ∀ r ∈ c.roots, r ∈ succ v)
      (hsucc : ∀ w ∈ succ v, w ∈ m)
      (hs : DFSF succ m o s) :
      DFSF succ i o (.node v c s)

/-- Inner loop of the second pass (`base.py` lines 615-626) in recursive
form: mark every module reachable over `required` edges through unindexed
modules with the component index `j` of the component base. -/
def markRec (req : Fin n → List (Fin n)) (ms : List (Fin n)) (j : Nat)
    (acc : Fin n → Option Nat) : Fin n → Option Nat :=
  match ms with
  | [] => acc
  | m :: ms2 =>
    if acc m = none then
      markRec req ((req m).reverse ++ ms2) j (Function.update acc m (some j))
    else markRec req ms2 j acc
termination_by ((Finset.univ.filter (fun x => acc x = none)).card, ms.length)
decreasing_by
  · apply Prod.Lex.left
    apply Finset.card_lt_card
    constructor
    · intro x hx
      rw [Finset.mem_filter] at hx ⊢
      refine ⟨hx.1, ?_⟩
      by_cases hxm : x = m
      · rw [hxm, Function.update_same] at hx
        exact absurd hx.2 (by simp)
      · rw [Function.update_noteq hxm] at hx
        exact hx.2
    · intro hsub
      have hm : m ∈ Finset.univ.filter (fun x => acc x = none) := by
        rw [Finset.mem_filter]
        exact ⟨Finset.mem_univ m, by assumption⟩
      have := hsub hm
      rw [Finset.mem_filter, Function.update_same] at this
      exact absurd this.2 (by simp)
  · apply Prod.Lex.right'
    · exact le_rfl
    · simp

/-- Outer loop of the second pass (`base.py` lines 612-626) in recursive
form: walk the finish list in reverse finish order; every still-unindexed
module starts a new component with the next index, propagated by `markRec`
over `required` edges. -/
def pass2Rec (req : Fin n → List (Fin n)) (ss : List (Fin n)) (k : Nat)
    (acc : Fin n → Option Nat) : Fin n → Option Nat :=
  match ss with
  | [] => acc
  | s :: ss2 =>
    if acc s = none then
      pass2Rec req ss2 (k + 1)
        (markRec req ((req s).reverse) k (Function.update acc s (some k)))
    else pass2Rec req ss2 k acc

/-- The dependency graph of a catalog with `n` modules: each module's
`required` and `enabled` edge sets, in set-iteration order. -/
structure Graph (n : Nat) : Type where
  required : Fin n → List (Fin n)
  enabled : Fin n → List (Fin n)

/-- The two edge relations are mutually inverse — the invariant
`Module.require` maintains (`base.py` lines 343-351). -/
def EdgesInv (g : Graph n) : Prop :=
  ∀ i j : Fin n, j ∈ g.enabled i ↔ i ∈ g.required j

/-- First pass of `strongly_connected_index` run over the whole catalog:
the initial stack holds a visit command for every module (pushed in
enumeration order, so popped in reverse order), and the result is the
finish list `L` of `(m, m)` pairs in chronological finish order. -/
def pass1 (g : Graph n) : List (Fin n × Fin n) :=
  pass1Loop g.enabled (((List.finRange n).reverse).map .visit) ∅ []

/-- `strongly_connected_index(catalog)` (`base.py` lines 570-626): clear all
indices, run the first pass, then consume the finish list from its end (the
second pass pops pairs pushed by the first), indexing components. -/
def strongly_connected_index (g : Graph n) : Fin n → Option Nat :=
  pass2Rec g.required (((pass1 g).reverse).map Prod.fst) 0 (fun _ => none)

/-- One step of the second pass exactly as the source loop executes it
(`base.py` lines 615-626): state is the pair stack `L` (head = top), the
counter and the index assignment.  An indexed module is dropped; an
unindexed pair `(m, m)` starts a component at the counter; an unindexed
pair `(m, b)` with `m ≠ b` copies the base's index; both push the
`required` edge pairs. -/
inductive Pass2Step (req : Fin n → List (Fin n)) :
    List (Fin n × Fin n) × Nat × (Fin n → Option Nat) →
    List (Fin n × Fin n) × Nat × (Fin n → Option Nat) → Prop
  | drop (m b : Fin n) (L : List (Fin n × Fin n)) (k : Nat)
      (acc : Fin n → Option Nat) (h : acc m ≠ none) :
      Pass2Step req ((m, b) :: L, k, acc) (L, k, acc)
  | base (m : Fin n) (L : List (Fin n × Fin n)) (k : Nat)
      (acc : Fin n → Option Nat) (h : acc m = none) :
      Pass2Step req ((m, m) :: L, k, acc)
        (((req m).reverse.map (fun x => (x, m))) ++ L, k + 1,
          Function.update acc m (some k))
  | copy (m b : Fin n) (L : List (Fin n × Fin n)) (k : Nat)
      (acc : Fin n → Option Nat) (h : acc m = none) (hne : m ≠ b) :
      Pass2Step req ((m, b) :: L, k, acc)
        (((req m).reverse.map (fun x => (x, b))) ++ L, k,
          Function.update acc m (acc b))

/-- Executions of the second pass: reflexive-transitive closure of its
steps. -/
def Pass2Runs (req : Fin n → List (Fin n)) :
    List (Fin n × Fin n) × Nat × (Fin n → Option Nat) →
    List (Fin n × Fin n) × Nat × (Fin n → Option Nat) → Prop :=
  Relation.ReflTransGen (Pass2Step req)

end Stelar

namespace Stelar

/-! ### Correctness of `transitive_closure` -/

variable {n : Nat}

theorem tcStep_fold_snd_mem (xs : List (Fin n)) (p : Finset (Fin n) × List (Fin n))
    (hp : ∀ x ∈ p.2, x ∈ p.1) :
    ∀ x ∈ (xs.foldl tcStep p).2, x ∈ (xs.foldl tcStep p).1 := by
  induction xs generalizing p with
  | nil => exact hp
  | cons y xs ih =>
    rw [List.foldl_cons]
    refine ih (tcStep p y) ?_
    unfold tcStep
    split
    · exact hp
    · intro x hx
      rcases List.mem_append.mp hx with hx | hx
      · exact Finset.mem_insert_of_mem (hp x hx)
      · rw [List.mem_singleton] at hx
        rw [hx]
        exact Finset.mem_insert_self y p.1

theorem tcStep_fold_mem_of_mem_list (xs : List (Fin n)) (p : Finset (Fin n) × List (Fin n)) :
    ∀ x ∈ xs, x ∈ (xs.foldl tcStep p).1 := by
  induction xs generalizing p with
  | nil => simp
  | cons y xs ih =>
    intro x hx
    rw [List.foldl_cons]
    rcases List.mem_cons.mp hx with rfl | hx
    · refine tcStep_fold_subset xs (tcStep p x) ?_
      unfold tcStep
      split
      · assumption
      · exact Finset.mem_insert_self x p.1
    · exact ih (tcStep p y) x hx

theorem tcStep_fold_fst_subset (xs : List (Fin n)) (p : Finset (Fin n) × List (Fin n)) :
    ∀ x ∈ (xs.foldl tcStep p).1, x ∈ p.1 ∨ x ∈ xs := by
  induction xs generalizing p with
  | nil => intro x hx; exact Or.inl hx
  | cons y xs ih =>
    intro x hx
    rw [List.foldl_cons] at hx
    rcases ih (tcStep p y) x hx with hx | hx
    · unfold tcStep at hx
      split at hx
      · exact Or.inl hx
      · rcases Finset.mem_insert.mp hx with rfl | hx
        · exact Or.inr (List.mem_cons_self _ _)
        · exact Or.inl hx
    · exact Or.inr (List.mem_cons_of_mem _ hx)

theorem tcStep_fold_snd_subset (xs : List (Fin n)) (p : Finset (Fin n) × List (Fin n)) :
    ∀ x ∈ (xs.foldl tcStep p).2, x ∈ p.2 ∨ x ∈ xs := by
  induction xs generalizing p with
  | nil => intro x hx; exact Or.inl hx
  | cons y xs ih =>
    intro x hx
    rw [List.foldl_cons] at hx
    rcases ih (tcStep p y) x hx with hx | hx
    · unfold tcStep at hx
      split at hx
      · exact Or.inl hx
      · rcases List.mem_append.mp hx with hx | hx
        · exact Or.inl hx
        · rw [List.mem_singleton] at hx
          exact Or.inr (hx ▸ List.mem_cons_self _ _)
    · exact Or.inr (List.mem_cons_of_mem _ hx)

theorem tcLoop_subset (f : Fin n → List (Fin n)) (Q : List (Fin n)) (S : Finset (Fin n)) :
    S ⊆ tcLoop f Q S := by
  induction Q, S using tcLoop.induct f with
  | case1 S =>
    unfold tcLoop
    exact Finset.Subset.refl S
  | case2 S m Q2 r =>
    rename_i ih
    unfold tcLoop
    exact Finset.Subset.trans (tcStep_fold_subset (f m) (S, [])) ih

theorem tcStep_fold_snd_mono (xs : List (Fin n)) (p : Finset (Fin n) × List (Fin n)) :
    ∀ x ∈ p.2, x ∈ (xs.foldl tcStep p).2 := by
  induction xs generalizing p with
  | nil => intro x hx; exact hx
  | cons y xs ih =>
    intro x hx
    rw [List.foldl_cons]
    refine ih (tcStep p y) x ?_
    unfold tcStep
    split
    · exact hx
    · exact List.mem_append.mpr (Or.inl hx)

theorem tcStep_fold_new_in_snd (xs : List (Fin n)) (p : Finset (Fin n) × List (Fin n)) :
    ∀ x ∈ xs, x ∉ p.1 → x ∈ (xs.foldl tcStep p).2 := by
  induction xs generalizing p with
  | nil => simp
  | cons y xs ih =>
    intro x hx hxp
    rw [List.foldl_cons]
    by_cases hxy : x = y
    · subst hxy
      have hstep : tcStep p x = (insert x p.1, p.2 ++ [x]) := by
        unfold tcStep; rw [if_neg hxp]
      rw [hstep]
      exact tcStep_fold_snd_mono xs _ x
        (List.mem_append.mpr (Or.inr (List.mem_singleton.mpr rfl)))
    · have hx2 : x ∈ xs := by
        rcases List.mem_cons.mp hx with h | h
        · exact absurd h hxy
        · exact h
      refine ih (tcStep p y) x hx2 ?_
      unfold tcStep
      split
      · exact hxp
      · intro hc
        rcases Finset.mem_insert.mp hc with h | h
        · exact hxy h
        · exact hxp h

theorem tcLoop_closed (f : Fin n → List (Fin n)) (Q : List (Fin n)) (S : Finset (Fin n))
    (hQS : ∀ x ∈ Q, x ∈ S)
    (hexp : ∀ x ∈ S, x ∈ Q ∨ ∀ y ∈ f x, y ∈ S) :
    ∀ x ∈ tcLoop f Q S, ∀ y ∈ f x, y ∈ tcLoop f Q S := by
  induction Q, S using tcLoop.induct f with
  | case1 S =>
    intro x hx y hy
    unfold tcLoop at hx ⊢
    rcases hexp x hx with h | h
    · exact absurd h (by simp)
    · exact h y hy
  | case2 S m Q2 r =>
    rename_i ih
    unfold tcLoop
    refine ih ?_ ?_
    · intro x hx
      rcases List.mem_append.mp hx with hx | hx
      · exact tcStep_fold_subset (f m) (S, []) (hQS x (List.mem_cons_of_mem _ hx))
      · exact tcStep_fold_snd_mem (f m) (S, []) (by simp) x hx
    · intro x hx
      by_cases hxm : x = m
      · subst hxm
        right
        intro y hy
        exact tcStep_fold_mem_of_mem_list (f x) (S, []) y hy
      · by_cases hxS : x ∈ S
        · rcases hexp x hxS with h | h
          · rcases List.mem_cons.mp h with h | h
            · exact absurd h hxm
            · exact Or.inl (List.mem_append.mpr (Or.inl h))
          · right
            intro y hy
            exact tcStep_fold_subset (f m) (S, []) (h y hy)
        · rcases tcStep_fold_fst_subset (f m) (S, []) x hx with h | h
          · exact absurd h hxS
          · left
            exact List.mem_append.mpr (Or.inr (tcStep_fold_new_in_snd (f m) (S, []) x h hxS))

theorem tcLoop_sound (f : Fin n → List (Fin n)) (S₀ : Finset (Fin n))
    (Q : List (Fin n)) (S : Finset (Fin n))
    (hQS : ∀ x ∈ Q, x ∈ S)
    (hreach : ∀ x ∈ S, ∃ s ∈ S₀, Reach f s x) :
    ∀ x ∈ tcLoop f Q S, ∃ s ∈ S₀, Reach f s x := by
  induction Q, S using tcLoop.induct f with
  | case1 S =>
    unfold tcLoop
    exact hreach
  | case2 S m Q2 r =>
    rename_i ih
    unfold tcLoop
    refine ih ?_ ?_
    · intro x hx
      rcases List.mem_append.mp hx with hx | hx
      · exact tcStep_fold_subset (f m) (S, []) (hQS x (List.mem_cons_of_mem _ hx))
      · exact tcStep_fold_snd_mem (f m) (S, []) (by simp) x hx
    · intro x hx
      rcases tcStep_fold_fst_subset (f m) (S, []) x hx with h | h
      · exact hreach x h
      · obtain ⟨s, hs, hr⟩ := hreach m (hQS m (List.mem_cons_self _ _))
        exact ⟨s, hs, Relation.ReflTransGen.tail hr h⟩

/-- `transitive_closure(S, f)` computes exactly the modules reachable from
`S` along `f`-edges. -/
theorem transitive_closure_spec (S : Finset (Fin n)) (f : Fin n → List (Fin n)) :
    ∀ x, x ∈ transitive_closure S f ↔ ∃ s ∈ S, Reach f s x := by
  intro x
  constructor
  · refine tcLoop_sound f S _ S ?_ ?_ x
    · intro y hy
      exact (Finset.mem_sort (α := Fin n) (· ≤ ·)).mp hy
    · intro y hy
      exact ⟨y, hy, Relation.ReflTransGen.refl⟩
  · rintro ⟨s, hs, hr⟩
    induction hr with
    | refl =>
      exact tcLoop_subset f _ S hs
    | tail hr hstep ih =>
      exact tcLoop_closed f _ S
        (fun y hy => (Finset.mem_sort (α := Fin n) (· ≤ ·)).mp hy)
        (fun y hy => Or.inl ((Finset.mem_sort (α := Fin n) (· ≤ ·)).mpr hy))
        _ ih _ hstep

end Stelar

namespace Stelar

/-! ### Reachability lemmas -/

variable {n : Nat}

/-- Mutual reachability over a successor relation (same strongly connected
component). -/
def SameSCC (succ : Fin n → List (Fin n)) (x y : Fin n) : Prop :=
  Reach succ x y ∧ Reach succ y x

theorem SameSCC.refl (succ : Fin n → List (Fin n)) (x : Fin n) : SameSCC succ x x :=
  ⟨Relation.ReflTransGen.refl, Relation.ReflTransGen.refl⟩

theorem SameSCC.symm {succ : Fin n → List (Fin n)} {x y : Fin n}
    (h : SameSCC succ x y) : SameSCC succ y x := ⟨h.2, h.1⟩

theorem SameSCC.trans {succ : Fin n → List (Fin n)} {x y z : Fin n}
    (h1 : SameSCC succ x y) (h2 : SameSCC succ y z) : SameSCC succ x z :=
  ⟨h1.1.trans h2.1, h2.2.trans h1.2⟩

/-- With mutually inverse edge sets, `required`-reachability is
`enabled`-reachability backwards. -/
theorem reach_inv (g : Graph n) (h : EdgesInv g) (x y : Fin n) :
    Reach g.required x y ↔ Reach g.enabled y x := by
  constructor
  · intro hr
    induction hr with
    | refl => exact Relation.ReflTransGen.refl
    | tail hr hstep ih =>
      exact Relation.ReflTransGen.head ((h _ _).mpr hstep) ih
  · intro hr
    induction hr with
    | refl => exact Relation.ReflTransGen.refl
    | tail hr hstep ih =>
      exact Relation.ReflTransGen.head ((h _ _).mp hstep) ih

/-- A path between two mutually reachable modules can be chosen avoiding any
set that misses the whole component. -/
theorem reach_avoid_within (succ : Fin n → List (Fin n)) (A : Finset (Fin n))
    (z : Fin n) (hA : ∀ t, SameSCC succ z t → t ∉ A) :
    ∀ u, Reach succ z u → Reach succ u z →
      Relation.ReflTransGen (fun a b => Step succ a b ∧ b ∉ A) z u := by
  intro u hzu
  induction hzu with
  | refl => intro _; exact Relation.ReflTransGen.refl
  | tail hzm hstep ih =>
    intro huz
    next m u =>
    have hmz : Reach succ m z := Relation.ReflTransGen.head hstep huz
    have hu : u ∉ A := hA u ⟨Relation.ReflTransGen.tail hzm hstep, huz⟩
    exact Relation.ReflTransGen.tail (ih hmz) ⟨hstep, hu⟩

/-- Any reflexive-transitive path either avoids stepping into `z`, or has a
final stretch from `z` that avoids stepping into `z` again. -/
theorem reach_split_last (r : Fin n → Fin n → Prop) (z : Fin n) :
    ∀ m v, Relation.ReflTransGen r m v →
      Relation.ReflTransGen (fun a b => r a b ∧ b ≠ z) m v ∨
        Relation.ReflTransGen (fun a b => r a b ∧ b ≠ z) z v := by
  intro m v h
  induction h with
  | refl => exact Or.inl Relation.ReflTransGen.refl
  | tail hmx hstep ih =>
    next x y =>
    by_cases hyz : y = z
    · subst hyz
      exact Or.inr Relation.ReflTransGen.refl
    · rcases ih with ih | ih
      · exact Or.inl (Relation.ReflTransGen.tail ih ⟨hstep, hyz⟩)
      · exact Or.inr (Relation.ReflTransGen.tail ih ⟨hstep, hyz⟩)

end Stelar

namespace Stelar

/-! ### The first pass builds a depth-first search forest -/

variable {n : Nat}

theorem dfsAux_visits (succ : Fin n → List (Fin n)) :
    ∀ (vs : List (Fin n)) (V : Finset (Fin n)) (L : List (Fin n × Fin n)),
      ∀ x ∈ vs, x ∈ (dfsAux succ vs V L).1.1 := by
  intro vs V L
  induction vs, V, L using dfsAux.induct succ with
  | case1 V L => simp
  | case2 V L m Q2 hm ih =>
    intro x hx
    unfold dfsAux
    rw [dif_pos hm]
    rcases List.mem_cons.mp hx with rfl | hx
    · exact (dfsAux succ Q2 V L).2 hm
    · exact ih x hx
  | case3 V L m Q2 hm r1 ih1 ih2 ih3 =>
    intro x hx
    unfold dfsAux
    rw [dif_neg hm]
    rcases List.mem_cons.mp hx with rfl | hx
    · exact (dfsAux succ Q2 r1.1.1 (r1.1.2 ++ [(x, x)])).2
        (r1.2 (Finset.mem_insert_self x V))
    · exact ih3 x hx

theorem dfsAux_forest (succ : Fin n → List (Fin n)) :
    ∀ (vs : List (Fin n)) (V : Finset (Fin n)) (L : List (Fin n × Fin n)),
      ∃ F : Forest n,
        DFSF succ V (dfsAux succ vs V L).1.1 F ∧
        (dfsAux succ vs V L).1.2 = L ++ (F.PO.map (fun x => (x, x))) ∧
        (∀ r ∈ F.roots, r ∈ vs) := by
  intro vs V L
  induction vs, V, L using dfsAux.induct succ with
  | case1 V L =>
    refine ⟨.nil, ?_, ?_, ?_⟩
    · unfold dfsAux
      exact DFSF.nil V
    · unfold dfsAux
      simp [Forest.PO]
    · simp [Forest.roots]
  | case2 V L m Q2 hm ih =>
    obtain ⟨F, h1, h2, h3⟩ := ih
    refine ⟨F, ?_, ?_, ?_⟩
    · unfold dfsAux
      rw [dif_pos hm]
      exact h1
    · unfold dfsAux
      rw [dif_pos hm]
      exact h2
    · intro r hr
      exact List.mem_cons_of_mem _ (h3 r hr)
  | case3 V L m Q2 hm r1 ih1 ih2 ih3 =>
    obtain ⟨Fc, hc1, hc2, hc3⟩ := ih1
    obtain ⟨Fs, hs1, hs2, hs3⟩ := ih3
    refine ⟨.node m Fc Fs, ?_, ?_, ?_⟩
    · unfold dfsAux
      rw [dif_neg hm]
      refine DFSF.node V r1.1.1 _ m Fc Fs hm hc1 ?_ ?_ hs1
      · intro r hr
        exact List.mem_reverse.mp (hc3 r hr)
      · intro w hw
        exact dfsAux_visits succ ((succ m).reverse) (insert m V) L w
          (List.mem_reverse.mpr hw)
    · unfold dfsAux
      rw [dif_neg hm]
      rw [hs2, hc2]
      simp [Forest.PO]
    · intro r hr
      unfold Forest.roots at hr
      rcases List.mem_cons.mp hr with rfl | hr
      · exact List.mem_cons_self _ _
      · exact List.mem_cons_of_mem _ (hs3 r hr)

end Stelar

namespace Stelar

variable {n : Nat}

theorem DFSF.subset {succ : Fin n → List (Fin n)} {i o : Finset (Fin n)} {F : Forest n}
    (h : DFSF succ i o F) : i ⊆ o := by
  induction h with
  | nil => exact Finset.Subset.refl _
  | node i m o v c s hv hc hroots hsucc hs ihc ihs =>
    exact Finset.Subset.trans (Finset.subset_insert v i) (Finset.Subset.trans ihc ihs)

theorem DFSF.union {succ : Fin n → List (Fin n)} {i o : Finset (Fin n)} {F : Forest n}
    (h : DFSF succ i o F) : ∀ x, x ∈ o ↔ x ∈ i ∨ x ∈ F.PO := by
  induction h with
  | nil => intro x; simp [Forest.PO]
  | node i m o v c s hv hc hroots hsucc hs ihc ihs =>
    intro x
    rw [ihs x, ihc x, Forest.PO]
    simp only [Finset.mem_insert, List.mem_append, List.mem_cons]
    constructor
    · rintro ((( h | h) | h) | h)
      · exact Or.inr (Or.inr (Or.inl h))
      · exact Or.inl h
      · exact Or.inr (Or.inl h)
      · exact Or.inr (Or.inr (Or.inr h))
    · rintro (h | (h | (h | h)))
      · exact Or.inl (Or.inl (Or.inr h))
      · exact Or.inl (Or.inr h)
      · exact Or.inl (Or.inl (Or.inl h))
      · exact Or.inr h

theorem DFSF.nodup {succ : Fin n → List (Fin n)} {i o : Finset (Fin n)} {F : Forest n}
    (h : DFSF succ i o F) : F.PO.Nodup ∧ ∀ x ∈ F.PO, x ∉ i := by
  induction h with
  | nil => exact ⟨List.nodup_nil, by simp [Forest.PO]⟩
  | node i m o v c s hv hc hroots hsucc hs ihc ihs =>
    obtain ⟨hcnd, hci⟩ := ihc
    obtain ⟨hsnd, hsi⟩ := ihs
    have hvc : v ∉ c.PO := fun hvc => hci v hvc (Finset.mem_insert_self v i)
    have hcm : ∀ x ∈ c.PO, x ∈ m := by
      intro x hx
      rw [hc.union x]
      exact Or.inr hx
    have hvs : v ∉ Forest.PO s := fun hv' =>
      (hsi v hv') (hc.subset (Finset.mem_insert_self v i))
    have hdisj : ∀ x ∈ Forest.PO c, x ∉ v :: Forest.PO s := by
      intro x hx hmem
      rcases List.mem_cons.mp hmem with rfl | hmem
      · exact hvc hx
      · exact (hsi x hmem) (hcm x hx)
    constructor
    · rw [Forest.PO, List.nodup_append]
      exact ⟨hcnd, List.nodup_cons.mpr ⟨hvs, hsnd⟩, fun a ha hb => hdisj a ha hb⟩
    · intro x hx
      rw [Forest.PO, List.mem_append, List.mem_cons] at hx
      rcases hx with hx | hx | hx
      · intro hxi
        exact hci x hx (Finset.mem_insert_of_mem hxi)
      · subst hx
        exact hv
      · intro hxi
        exact hsi x hx (hc.subset (Finset.mem_insert_of_mem hxi))

theorem DFSF.succ_closed {succ : Fin n → List (Fin n)} {i o : Finset (Fin n)} {F : Forest n}
    (h : DFSF succ i o F) : ∀ x ∈ F.PO, ∀ y ∈ succ x, y ∈ o := by
  induction h with
  | nil => simp [Forest.PO]
  | node i m o v c s hv hc hroots hsucc hs ihc ihs =>
    intro x hx y hy
    rw [Forest.PO, List.mem_append, List.mem_cons] at hx
    rcases hx with hx | hx | hx
    · exact hs.subset (ihc x hx y hy)
    · subst hx
      exact hs.subset (hsucc y hy)
    · exact ihs x hx y hy

theorem DFSF.sound {succ : Fin n → List (Fin n)} {i o : Finset (Fin n)} {F : Forest n}
    (h : DFSF succ i o F) : ∀ x ∈ F.PO, ∃ rt ∈ F.roots, Reach succ rt x := by
  induction h with
  | nil => simp [Forest.PO]
  | node i m o v c s hv hc hroots hsucc hs ihc ihs =>
    intro x hx
    rw [Forest.PO, List.mem_append, List.mem_cons] at hx
    rcases hx with hx | hx | hx
    · obtain ⟨rt, hrt, hr⟩ := ihc x hx
      refine ⟨v, List.mem_cons_self _ _, ?_⟩
      exact Relation.ReflTransGen.head (hroots rt hrt) hr
    · subst hx
      exact ⟨x, List.mem_cons_self _ _, Relation.ReflTransGen.refl⟩
    · obtain ⟨rt, hrt, hr⟩ := ihs x hx
      exact ⟨rt, List.mem_cons_of_mem _ hrt, hr⟩

theorem pass1Loop_push (succ : Fin n → List (Fin n)) (m : Fin n) (S : List (Cmd n))
    (V : Finset (Fin n)) (L : List (Fin n × Fin n)) :
    pass1Loop succ (.push m :: S) V L = pass1Loop succ S V (L ++ [(m, m)]) := by
  conv_lhs => rw [pass1Loop.eq_def]

theorem pass1Loop_visit (succ : Fin n → List (Fin n)) (m : Fin n) (S : List (Cmd n))
    (V : Finset (Fin n)) (L : List (Fin n × Fin n)) :
    pass1Loop succ (.visit m :: S) V L =
      if m ∈ V then pass1Loop succ S V L
      else pass1Loop succ (((succ m).reverse.map .visit) ++ .push m :: S)
        (insert m V) L := by
  conv_lhs => rw [pass1Loop.eq_def]

theorem pass1Loop_visit_mem (succ : Fin n → List (Fin n)) (m : Fin n) (S : List (Cmd n))
    (V : Finset (Fin n)) (L : List (Fin n × Fin n)) (hm : m ∈ V) :
    pass1Loop succ (.visit m :: S) V L = pass1Loop succ S V L := by
  rw [pass1Loop_visit, if_pos hm]

theorem pass1Loop_visit_not_mem (succ : Fin n → List (Fin n)) (m : Fin n) (S : List (Cmd n))
    (V : Finset (Fin n)) (L : List (Fin n × Fin n)) (hm : m ∉ V) :
    pass1Loop succ (.visit m :: S) V L =
      pass1Loop succ (((succ m).reverse.map .visit) ++ .push m :: S) (insert m V) L := by
  rw [pass1Loop_visit, if_neg hm]

theorem dfsAux_cons (succ : Fin n → List (Fin n)) (v : Fin n) (vs : List (Fin n))
    (V : Finset (Fin n)) (L : List (Fin n × Fin n)) :
    dfsAux succ (v :: vs) V L =
      if hv : v ∈ V then dfsAux succ vs V L
      else
        let r1 := dfsAux succ ((succ v).reverse) (insert v V) L
        let r2 := dfsAux succ vs r1.1.1 (r1.1.2 ++ [(v, v)])
        ⟨r2.1, le_trans (le_trans (Finset.subset_insert v V) r1.2) r2.2⟩ := by
  conv_lhs => rw [dfsAux.eq_def]

/-- The machine form of the first pass agrees with the recursive
depth-first search. -/
theorem pass1Loop_dfsAux (succ : Fin n → List (Fin n)) :
    ∀ (vs : List (Fin n)) (V : Finset (Fin n)) (L : List (Fin n × Fin n))
      (S : List (Cmd n)),
      pass1Loop succ (vs.map .visit ++ S) V L =
        pass1Loop succ S (dfsAux succ vs V L).1.1 (dfsAux succ vs V L).1.2 := by
  intro vs V L
  induction vs, V, L using dfsAux.induct succ with
  | case1 V L =>
    intro S
    unfold dfsAux
    rw [List.map_nil, List.nil_append]
  | case2 V L m Q2 hm ih =>
    intro S
    rw [List.map_cons, List.cons_append, pass1Loop_visit_mem succ m _ V L hm, ih S,
      dfsAux_cons, dif_pos hm]
  | case3 V L m Q2 hm r1 ih1 ih2 ih3 =>
    intro S
    rw [List.map_cons, List.cons_append, pass1Loop_visit_not_mem succ m _ V L hm,
      ih1 (Cmd.push m :: (List.map Cmd.visit Q2 ++ S)), pass1Loop_push, ih3 S,
      dfsAux_cons, dif_neg hm]

end Stelar

namespace Stelar

variable {n : Nat}

theorem pass1Loop_nil (succ : Fin n → List (Fin n)) (V : Finset (Fin n))
    (L : List (Fin n × Fin n)) : pass1Loop succ [] V L = L := by
  conv_lhs => rw [pass1Loop.eq_def]

/-- The first pass over the whole catalog produces the postorder pair list
of a depth-first search forest that covers every module. -/
theorem pass1_forest (g : Graph n) : ∃ F : Forest n,
    DFSF g.enabled ∅ Finset.univ F ∧
    pass1 g = F.PO.map (fun x => (x, x)) ∧
    (∀ v : Fin n, v ∈ F.PO) ∧ F.PO.Nodup := by
  obtain ⟨F, h1, h2, _⟩ :=
    dfsAux_forest g.enabled ((List.finRange n).reverse) ∅ []
  have hall : ∀ v : Fin n, v ∈ (dfsAux g.enabled ((List.finRange n).reverse) ∅ []).1.1 := by
    intro v
    exact dfsAux_visits g.enabled _ ∅ [] v
      (List.mem_reverse.mpr (List.mem_finRange v))
  have ho : (dfsAux g.enabled ((List.finRange n).reverse) ∅ []).1.1 = Finset.univ :=
    Finset.eq_univ_of_forall hall
  have hPO : ∀ v : Fin n, v ∈ F.PO := by
    intro v
    have := (h1.union v).mp (ho ▸ Finset.mem_univ v)
    rcases this with h | h
    · exact absurd h (Finset.not_mem_empty v)
    · exact h
  refine ⟨F, ho ▸ h1, ?_, hPO, (DFSF.nodup h1).1⟩
  unfold pass1
  rw [show (((List.finRange n).reverse).map (Cmd.visit (n := n))) =
    (((List.finRange n).reverse).map Cmd.visit ++ []) from by rw [List.append_nil]]
  rw [pass1Loop_dfsAux g.enabled ((List.finRange n).reverse) ∅ [] [], pass1Loop_nil]
  rw [h2, List.nil_append]

/-- Frame lemma: for a set `S` of modules untouched when the traversal
starts, some `z ∈ S` is the first of `S` to be discovered: its subtree
explores from a visited set still disjoint from `S`, and the postorder
splits as everything finished before the subtree (all already visited when
`z` was discovered), the subtree, `z`, and the rest. -/
theorem DFSF.frame {succ : Fin n → List (Fin n)} {i o : Finset (Fin n)} {F : Forest n}
    (h : DFSF succ i o F) (S : Finset (Fin n))
    (hSi : ∀ x ∈ S, x ∉ i) (hS : ∃ x ∈ S, x ∈ F.PO) :
    ∃ z ∈ S, ∃ (iz mz : Finset (Fin n)) (c : Forest n) (P1 P2 : List (Fin n)),
      z ∉ iz ∧ DFSF succ (insert z iz) mz c ∧
      (∀ r ∈ c.roots, r ∈ succ z) ∧ (∀ w ∈ succ z, w ∈ mz) ∧
      (∀ x ∈ i, x ∈ iz) ∧ (∀ x ∈ S, x ∉ iz) ∧
      F.PO = P1 ++ c.PO ++ z :: P2 ∧ (∀ x ∈ P1, x ∈ iz) := by
  induction h with
  | nil =>
    obtain ⟨x, _, hx⟩ := hS
    exact absurd hx (by simp [Forest.PO])
  | node i m o v c s hv hc hroots hsucc hs ihc ihs =>
    by_cases hvS : v ∈ S
    · refine ⟨v, hvS, i, m, c, [], s.PO, hSi v hvS, hc, hroots, hsucc,
        fun x hx => hx, hSi, ?_, by simp⟩
      rw [Forest.PO, List.nil_append]
    · by_cases hSc : ∃ x ∈ S, x ∈ c.PO
      · have hSi' : ∀ x ∈ S, x ∉ insert v i := by
          intro x hx
          rw [Finset.mem_insert]
          push_neg
          exact ⟨fun hxv => hvS (hxv ▸ hx), hSi x hx⟩
        obtain ⟨z, hzS, iz, mz, c', P1, P2, hz1, hz2, hz3, hz4, hz5, hz6, hz7, hz8⟩ :=
          ihc hSi' hSc
        refine ⟨z, hzS, iz, mz, c', P1, P2 ++ v :: s.PO, hz1, hz2, hz3, hz4,
          fun x hx => hz5 x (Finset.mem_insert_of_mem hx), hz6, ?_, hz8⟩
        rw [Forest.PO, hz7]
        simp
      · have hSm : ∀ x ∈ S, x ∉ m := by
          intro x hx hxm
          rcases (hc.union x).mp hxm with hxi | hxc
          · rcases Finset.mem_insert.mp hxi with rfl | hxi
            · exact hvS hx
            · exact hSi x hx hxi
          · exact hSc ⟨x, hx, hxc⟩
        have hSs : ∃ x ∈ S, x ∈ s.PO := by
          obtain ⟨x, hx, hxPO⟩ := hS
          rw [Forest.PO, List.mem_append, List.mem_cons] at hxPO
          rcases hxPO with hxc | rfl | hxs
          · exact absurd ⟨x, hx, hxc⟩ hSc
          · exact absurd hx hvS
          · exact ⟨x, hx, hxs⟩
        obtain ⟨z, hzS, iz, mz, c', P1, P2, hz1, hz2, hz3, hz4, hz5, hz6, hz7, hz8⟩ :=
          ihs hSm hSs
        refine ⟨z, hzS, iz, mz, c', c.PO ++ v :: P1, P2, hz1, hz2, hz3, hz4,
          ?_, hz6, ?_, ?_⟩
        · intro x hx
          exact hz5 x (hc.subset (Finset.mem_insert_of_mem hx))
        · rw [Forest.PO, hz7]
          simp
        · intro x hx
          rw [List.mem_append, List.mem_cons] at hx
          rcases hx with hxc | rfl | hxP
          · exact hz5 x ((hc.union x).mpr (Or.inr hxc))
          · exact hz5 x ((hc.union x).mpr (Or.inl (Finset.mem_insert_self x i)))
          · exact hz8 x hxP

end Stelar

namespace Stelar

variable {n : Nat}

theorem frame_white_path {succ : Fin n → List (Fin n)} {iz mz : Finset (Fin n)}
    {z : Fin n} {c : Forest n}
    (hc : DFSF succ (insert z iz) mz c) (hsucc : ∀ w ∈ succ z, w ∈ mz) :
    ∀ v, Relation.ReflTransGen (fun a b => Step succ a b ∧ b ∉ iz) z v →
      v = z ∨ v ∈ c.PO := by
  intro v h
  induction h with
  | refl => exact Or.inl rfl
  | tail hx hstep ih =>
    next x y =>
    obtain ⟨hxy, hyiz⟩ := hstep
    have hym : y ∈ mz := by
      rcases ih with rfl | hxc
      · exact hsucc y hxy
      · exact DFSF.succ_closed hc x hxc y hxy
    rcases (hc.union y).mp hym with hyi | hyc
    · rcases Finset.mem_insert.mp hyi with rfl | hyi
      · exact Or.inl rfl
      · exact absurd hyi hyiz
    · exact Or.inr hyc

theorem idx_lt_of_split {l1 l2 : List (Fin n)} {z x : Fin n}
    (hnd : (l1 ++ z :: l2).Nodup) (hx : x ∈ l1) :
    (l1 ++ z :: l2).indexOf x < (l1 ++ z :: l2).indexOf z := by
  have hz1 : z ∉ l1 := by
    rw [List.nodup_append] at hnd
    intro hc
    exact hnd.2.2 hc (List.mem_cons_self _ _)
  rw [List.indexOf_append_of_mem hx, List.indexOf_append_of_not_mem hz1,
    List.indexOf_cons_self]
  have := List.indexOf_lt_length.mpr hx
  omega

theorem idx_gt_of_split {l1 l2 : List (Fin n)} {z x : Fin n}
    (hnd : (l1 ++ z :: l2).Nodup) (hx : x ∈ l2) :
    (l1 ++ z :: l2).indexOf z < (l1 ++ z :: l2).indexOf x := by
  have hz1 : z ∉ l1 := by
    rw [List.nodup_append] at hnd
    intro hc
    exact hnd.2.2 hc (List.mem_cons_self _ _)
  have hx1 : x ∉ l1 := by
    rw [List.nodup_append] at hnd
    intro hc
    exact hnd.2.2 hc (List.mem_cons_of_mem _ hx)
  have hxz : x ≠ z := by
    rintro rfl
    rw [List.nodup_append, List.nodup_cons] at hnd
    exact hnd.2.1.1 hx
  rw [List.indexOf_append_of_not_mem hz1, List.indexOf_append_of_not_mem hx1,
    List.indexOf_cons_self]
  have : List.indexOf x (z :: l2) = Nat.succ (List.indexOf x l2) :=
    List.indexOf_cons_ne _ (Ne.symm hxz)
  omega

end Stelar

namespace Stelar

variable {n : Nat}

/-- Crossing an `enabled` edge between distinct components, the source's
component contains a module finishing after everything in the target's
component. -/
theorem scc_edge_order (g : Graph n) (F : Forest n)
    (hF : DFSF g.enabled ∅ Finset.univ F) (hPO : ∀ v : Fin n, v ∈ F.PO)
    (hnd : F.PO.Nodup) (u v : Fin n) (hedge : v ∈ g.enabled u)
    (hne : ¬ SameSCC g.enabled u v) :
    ∃ r, SameSCC g.enabled u r ∧
      ∀ b, SameSCC g.enabled v b → F.PO.indexOf b < F.PO.indexOf r := by
  classical
  set E := g.enabled with hE
  set S : Finset (Fin n) :=
    Finset.univ.filter (fun w => SameSCC E u w ∨ SameSCC E v w) with hS
  have hmemS : ∀ w, w ∈ S ↔ (SameSCC E u w ∨ SameSCC E v w) := by
    intro w
    rw [hS, Finset.mem_filter]
    simp
  obtain ⟨z, hzS, iz, mz, c, P1, P2, hz1, hz2, hz3, hz4, hz5, hz6, hz7, hz8⟩ :=
    DFSF.frame hF S (fun x _ => Finset.not_mem_empty x)
      ⟨u, (hmemS u).mpr (Or.inl (SameSCC.refl E u)), hPO u⟩
  have hndsplit : (P1 ++ c.PO ++ z :: P2).Nodup := hz7 ▸ hnd
  have hidxc : ∀ x ∈ c.PO, F.PO.indexOf x < F.PO.indexOf z := by
    intro x hx
    rw [hz7]
    exact idx_lt_of_split hndsplit (List.mem_append.mpr (Or.inr hx))
  have hidxP2 : ∀ x ∈ P2, F.PO.indexOf z < F.PO.indexOf x := by
    intro x hx
    rw [hz7]
    exact idx_gt_of_split hndsplit hx
  have hsound : ∀ x ∈ c.PO, Reach E z x := by
    intro x hx
    obtain ⟨rt, hrt, hr⟩ := DFSF.sound hz2 x hx
    exact Relation.ReflTransGen.head (hz3 rt hrt) hr
  rcases (hmemS z).mp hzS with hzu | hzv
  · -- the first discovered module of the two components is in the source
    -- component: the whole target component lies inside its subtree
    refine ⟨z, hzu, ?_⟩
    intro b hb
    have hbS : b ∈ S := (hmemS b).mpr (Or.inr hb)
    have hra1 : Relation.ReflTransGen (fun a b => Step E a b ∧ b ∉ iz) z u := by
      refine reach_avoid_within E iz z ?_ u hzu.2 hzu.1
      intro t ht
      exact hz6 t ((hmemS t).mpr (Or.inl (hzu.trans ht)))
    have hra2 : Relation.ReflTransGen (fun a b => Step E a b ∧ b ∉ iz) v b := by
      refine reach_avoid_within E iz v ?_ b hb.1 hb.2
      intro t ht
      exact hz6 t ((hmemS t).mpr (Or.inr (ht)))
    have hviz : v ∉ iz := hz6 v ((hmemS v).mpr (Or.inr (SameSCC.refl E v)))
    have hra : Relation.ReflTransGen (fun a b => Step E a b ∧ b ∉ iz) z b :=
      Relation.ReflTransGen.trans (Relation.ReflTransGen.tail hra1 ⟨hedge, hviz⟩) hra2
    rcases frame_white_path hz2 hz4 b hra with rfl | hbc
    · exact absurd (hzu.trans hb.symm) hne
    · exact hidxc b hbc
  · -- the first discovered module is in the target component: the whole
    -- target component finishes inside its subtree, while the source
    -- module is still untouched when the subtree completes
    refine ⟨u, SameSCC.refl E u, ?_⟩
    intro b hb
    have hble : F.PO.indexOf b ≤ F.PO.indexOf z := by
      have hra : Relation.ReflTransGen (fun a b => Step E a b ∧ b ∉ iz) z b := by
        refine reach_avoid_within E iz z ?_ b (hzv.symm.trans hb).1 (hzv.symm.trans hb).2
        intro t ht
        exact hz6 t ((hmemS t).mpr (Or.inr (hzv.trans ht)))
      rcases frame_white_path hz2 hz4 b hra with rfl | hbc
      · exact le_rfl
      · exact le_of_lt (hidxc b hbc)
    have huP2 : u ∈ P2 := by
      have huPO : u ∈ F.PO := hPO u
      have hu1 : u ∉ P1 := fun hc =>
        hz6 u ((hmemS u).mpr (Or.inl (SameSCC.refl E u))) (hz8 u hc)
      have huz : u ≠ z := by
        rintro rfl
        exact hne hzv.symm
      have huc : u ∉ c.PO := by
        intro hc
        have hzu2 : Reach E z u := hsound u hc
        have hvu : Reach E v u := hzv.1.trans hzu2
        exact hne ⟨Relation.ReflTransGen.single hedge, hvu⟩
      rw [hz7] at huPO
      rcases List.mem_append.mp huPO with h | h
      · rcases List.mem_append.mp h with h | h
        · exact absurd h hu1
        · exact absurd h huc
      · rcases List.mem_cons.mp h with h | h
        · exact absurd h huz
        · exact h
    exact lt_of_le_of_lt hble (hidxP2 u huP2)

/-- Along any `enabled` path, components can only move to later-finishing
components: for every module of the target's component there is one of the
source's component finishing no earlier. -/
theorem scc_reach_order (g : Graph n) (F : Forest n)
    (hF : DFSF g.enabled ∅ Finset.univ F) (hPO : ∀ v : Fin n, v ∈ F.PO)
    (hnd : F.PO.Nodup) :
    ∀ x y, Reach g.enabled x y → ∀ b, SameSCC g.enabled y b →
      ∃ a, SameSCC g.enabled x a ∧ F.PO.indexOf b ≤ F.PO.indexOf a := by
  intro x y h
  induction h with
  | refl =>
    intro b hb
    exact ⟨b, hb, le_rfl⟩
  | tail hxm hstep ih =>
    next m y =>
    intro b hb
    by_cases hmy : SameSCC g.enabled m y
    · exact ih b (hmy.trans hb)
    · obtain ⟨r, hrm, hrb⟩ := scc_edge_order g F hF hPO hnd m y hstep hmy
      obtain ⟨a, hax, har⟩ := ih r hrm
      exact ⟨a, hax, le_trans (le_of_lt (hrb b hb)) har⟩

end Stelar

namespace Stelar

variable {n : Nat}

theorem markRec_mono (req : Fin n → List (Fin n)) :
    ∀ (ms : List (Fin n)) (j : Nat) (acc : Fin n → Option Nat) (v : Fin n) (x : Nat),
      acc v = some x → markRec req ms j acc v = some x := by
  intro ms j acc
  induction ms, j, acc using markRec.induct req with
  | case1 j acc =>
    intro v x hv
    unfold markRec
    exact hv
  | case2 j acc m Q2 hm ih =>
    intro v x hv
    unfold markRec
    rw [if_pos hm]
    refine ih v x ?_
    have hvm : v ≠ m := fun hc => by rw [hc, hm] at hv; cases hv
    rw [Function.update_noteq hvm]
    exact hv
  | case3 j acc m Q2 hm ih =>
    intro v x hv
    unfold markRec
    rw [if_neg hm]
    exact ih v x hv

theorem markRec_change (req : Fin n → List (Fin n)) :
    ∀ (ms : List (Fin n)) (j : Nat) (acc : Fin n → Option Nat) (v : Fin n),
      markRec req ms j acc v ≠ acc v → markRec req ms j acc v = some j := by
  intro ms j acc
  induction ms, j, acc using markRec.induct req with
  | case1 j acc =>
    intro v hv
    unfold markRec at hv
    exact absurd rfl hv
  | case2 j acc m Q2 hm ih =>
    intro v hv
    unfold markRec at hv ⊢
    rw [if_pos hm] at hv ⊢
    by_cases hchange :
        markRec req ((req m).reverse ++ Q2) j (Function.update acc m (some j)) v =
          Function.update acc m (some j) v
    · rw [hchange]
      by_cases hvm : v = m
      · rw [hvm, Function.update_same]
      · rw [Function.update_noteq hvm] at hchange ⊢
        rw [hchange] at hv
        exact absurd rfl hv
    · exact ih v hchange
  | case3 j acc m Q2 hm ih =>
    intro v hv
    unfold markRec at hv ⊢
    rw [if_neg hm] at hv ⊢
    exact ih v hv

theorem markRec_marks_only (req : Fin n → List (Fin n)) (P : Fin n → Prop)
    (base : Fin n → Option Nat)
    (hclo : ∀ a b, P a → b ∈ req a → P b ∨ base b ≠ none) :
    ∀ (ms : List (Fin n)) (j : Nat) (acc : Fin n → Option Nat),
      (∀ x, base x ≠ none → acc x ≠ none) →
      (∀ m ∈ ms, P m ∨ base m ≠ none) →
      ∀ v, markRec req ms j acc v ≠ acc v → P v := by
  intro ms j acc
  induction ms, j, acc using markRec.induct req with
  | case1 j acc =>
    intro _ _ v hv
    unfold markRec at hv
    exact absurd rfl hv
  | case2 j acc m Q2 hm ih =>
    intro hbase hms v hv
    unfold markRec at hv
    rw [if_pos hm] at hv
    have hPm : P m := by
      rcases hms m (List.mem_cons_self _ _) with h | h
      · exact h
      · exact absurd (hbase m h) (by simp [hm])
    have hbase' : ∀ x, base x ≠ none → Function.update acc m (some j) x ≠ none := by
      intro x hx
      by_cases hxm : x = m
      · rw [hxm, Function.update_same]
        simp
      · rw [Function.update_noteq hxm]
        exact hbase x hx
    have hms' : ∀ m2 ∈ (req m).reverse ++ Q2, P m2 ∨ base m2 ≠ none := by
      intro m2 hm2
      rcases List.mem_append.mp hm2 with h | h
      · exact hclo m m2 hPm (List.mem_reverse.mp h)
      · exact hms m2 (List.mem_cons_of_mem _ h)
    by_cases hvm : v = m
    · exact hvm ▸ hPm
    · by_cases hchange :
          markRec req ((req m).reverse ++ Q2) j (Function.update acc m (some j)) v =
            Function.update acc m (some j) v
      · rw [hchange, Function.update_noteq hvm] at hv
        exact absurd rfl hv
      · exact ih hbase' hms' v hchange
  | case3 j acc m Q2 hm ih =>
    intro hbase hms v hv
    unfold markRec at hv
    rw [if_neg hm] at hv
    exact ih hbase
      (fun m2 hm2 => hms m2 (List.mem_cons_of_mem _ hm2)) v hv

theorem markRec_complete (req : Fin n → List (Fin n)) :
    ∀ (ms : List (Fin n)) (j : Nat) (acc : Fin n → Option Nat) (v : Fin n),
      (∃ m ∈ ms, acc m = none ∧
        Relation.ReflTransGen (fun a b => b ∈ req a ∧ acc b = none) m v) →
      markRec req ms j acc v = some j := by
  intro ms j acc
  induction ms, j, acc using markRec.induct req with
  | case1 j acc =>
    intro v hv
    obtain ⟨m, hm, _, _⟩ := hv
    exact absurd hm (by simp)
  | case2 j acc m Q2 hm ih =>
    intro v hv
    obtain ⟨m1, hm1, hm1n, hpath⟩ := hv
    unfold markRec
    rw [if_pos hm]
    -- a path stretch from `m` that never steps into `m` again lifts to the
    -- updated assignment; otherwise the whole path avoids `m` and lifts
    have hlift : ∀ w v2, w ≠ m →
        Relation.ReflTransGen (fun a b => (b ∈ req a ∧ acc b = none) ∧ b ≠ m) w v2 →
        Relation.ReflTransGen
          (fun a b => b ∈ req a ∧ Function.update acc m (some j) b = none) w v2 := by
      intro w v2 _ hp
      refine Relation.ReflTransGen.mono ?_ hp
      intro a b hab
      refine ⟨hab.1.1, ?_⟩
      rw [Function.update_noteq hab.2]
      exact hab.1.2
    have hfromm : ∀ v2,
        Relation.ReflTransGen (fun a b => (b ∈ req a ∧ acc b = none) ∧ b ≠ m) m v2 →
        markRec req ((req m).reverse ++ Q2) j (Function.update acc m (some j)) v2 =
          some j := by
      intro v2 hp
      rcases Relation.ReflTransGen.cases_head hp with heq | ⟨w, hw, hwp⟩
      · subst heq
        refine markRec_mono req _ j _ m j ?_
        exact Function.update_same _ _ _
      · refine ih v2 ⟨w, ?_, ?_, hlift w v2 hw.2 hwp⟩
        · exact List.mem_append.mpr (Or.inl (List.mem_reverse.mpr hw.1.1))
        · rw [Function.update_noteq hw.2]
          exact hw.1.2
    rcases reach_split_last (fun a b => b ∈ req a ∧ acc b = none) m m1 v hpath
      with hp | hp
    · by_cases hm1m : m1 = m
      · exact hfromm v (hm1m ▸ hp)
      · refine ih v ⟨m1, ?_, ?_, hlift m1 v hm1m hp⟩
        · rcases List.mem_cons.mp hm1 with h | h
          · exact absurd h hm1m
          · exact List.mem_append.mpr (Or.inr h)
        · rw [Function.update_noteq hm1m]
          exact hm1n
    · exact hfromm v hp
  | case3 j acc m Q2 hm ih =>
    intro v hv
    obtain ⟨m1, hm1, hm1n, hpath⟩ := hv
    unfold markRec
    rw [if_neg hm]
    refine ih v ⟨m1, ?_, hm1n, hpath⟩
    rcases List.mem_cons.mp hm1 with rfl | h
    · exact absurd hm1n hm
    · exact h

end Stelar

namespace Stelar

variable {n : Nat}

/-- Master invariant of the outer second-pass loop: walking the reversed
finish list with the already-processed prefix `P` behind us, the partial
index assignment is total on `P`, constant on components, injective across
components, bounded by the counter, anchored at a maximal-finish base per
component, and monotone along `enabled` reachability; at the end the
assignment is total, equal exactly on components, and ordered. -/
theorem pass2Rec_invariant (g : Graph n) (hinv : EdgesInv g) (PO : List (Fin n))
    (hnod : PO.Nodup) (hcov : ∀ v : Fin n, v ∈ PO)
    (hkey : ∀ x y, Reach g.enabled x y → ∀ b, SameSCC g.enabled y b →
      ∃ a, SameSCC g.enabled x a ∧ PO.indexOf b ≤ PO.indexOf a) :
    ∀ (rest P : List (Fin n)) (k : Nat) (acc : Fin n → Option Nat),
      PO.reverse = P ++ rest →
      (∀ x ∈ P, acc x ≠ none) →
      (∀ v, acc v ≠ none → ∃ b, b ∈ P ∧ SameSCC g.enabled v b ∧
        ∀ w, SameSCC g.enabled w b → PO.indexOf w ≤ PO.indexOf b) →
      (∀ v w, acc v ≠ none → SameSCC g.enabled v w → acc w = acc v) →
      (∀ v x, acc v = some x → x < k) →
      (∀ v w, acc v ≠ none → acc v = acc w → SameSCC g.enabled v w) →
      (∀ v w jv jw, acc v = some jv → acc w = some jw →
        Reach g.enabled v w → jv ≤ jw) →
      (∀ v, pass2Rec g.required rest k acc v ≠ none) ∧
      (∀ v w, pass2Rec g.required rest k acc v = pass2Rec g.required rest k acc w ↔
        SameSCC g.enabled v w) ∧
      (∀ v w jv jw, pass2Rec g.required rest k acc v = some jv →
        pass2Rec g.required rest k acc w = some jw →
        Reach g.enabled v w → jv ≤ jw) := by
  classical
  intro rest
  induction rest with
  | nil =>
    intro P k acc hsplit h1 h2 h3 h4 h5 h6
    have hacc : pass2Rec g.required [] k acc = acc := rfl
    rw [hacc]
    have hPall : ∀ v : Fin n, v ∈ P := by
      intro v
      have h := List.mem_reverse.mpr (hcov v)
      rw [hsplit, List.append_nil] at h
      exact h
    refine ⟨fun v => h1 v (hPall v), ?_, h6⟩
    intro v w
    constructor
    · intro h
      exact h5 v w (h1 v (hPall v)) h
    · intro h
      exact (h3 v w (h1 v (hPall v)) h).symm
  | cons s rest2 ih =>
    intro P k acc hsplit h1 h2 h3 h4 h5 h6
    have hPO2 : PO = rest2.reverse ++ s :: P.reverse := by
      have h := congrArg List.reverse hsplit
      rw [List.reverse_reverse] at h
      rw [h, List.reverse_append, List.reverse_cons, List.append_assoc,
        List.singleton_append]
    have hnod2 : (rest2.reverse ++ s :: P.reverse).Nodup := hPO2 ▸ hnod
    by_cases hs : acc s = none
    · -- `s` starts a new component
      have fidx1 : ∀ x ∈ P, PO.indexOf s < PO.indexOf x := by
        intro x hx
        rw [hPO2]
        exact idx_gt_of_split hnod2 (List.mem_reverse.mpr hx)
      have fidx2 : ∀ y, acc y = none → PO.indexOf y ≤ PO.indexOf s := by
        intro y hy
        have hymem : y ∈ rest2.reverse ++ s :: P.reverse := hPO2 ▸ hcov y
        rcases List.mem_append.mp hymem with h | h
        · rw [hPO2]
          exact le_of_lt (idx_lt_of_split hnod2 h)
        · rcases List.mem_cons.mp h with rfl | h
          · exact le_rfl
          · exact absurd hy (h1 y (List.mem_reverse.mp h))
      have f3 : ∀ t, SameSCC g.enabled s t → acc t = none := by
        intro t hst
        by_contra ht
        have heq := h3 t s ht hst.symm
        exact ht (heq ▸ hs)
      have hsccB : ∀ b, acc b = none → Reach g.enabled b s →
          SameSCC g.enabled s b := by
        intro b hb hbs
        obtain ⟨a, hab, hsa⟩ := hkey b s hbs s (SameSCC.refl _ s)
        have hanone : acc a = none := by
          by_contra ha
          have heq := h3 a b ha hab.symm
          exact ha (heq ▸ hb)
        have hle : PO.indexOf a ≤ PO.indexOf s := fidx2 a hanone
        have hidx : PO.indexOf a = PO.indexOf s := le_antisymm hle hsa
        have has : a = s := (List.indexOf_inj (hcov a) (hcov s)).mp hidx
        subst has
        exact hab.symm
      have hred : pass2Rec g.required (s :: rest2) k acc =
          pass2Rec g.required rest2 (k + 1)
            (markRec g.required ((g.required s).reverse) k
              (Function.update acc s (some k))) := by
        show (if acc s = none then
            pass2Rec g.required rest2 (k + 1)
              (markRec g.required ((g.required s).reverse) k
                (Function.update acc s (some k)))
          else pass2Rec g.required rest2 k acc) = _
        rw [if_pos hs]
      rw [hred]
      set acc2 : Fin n → Option Nat :=
        markRec g.required ((g.required s).reverse) k
          (Function.update acc s (some k)) with hacc2def
      have hacc2s : acc2 s = some k := by
        rw [hacc2def]
        exact markRec_mono _ _ k _ s k (Function.update_same _ _ _)
      have hcomp : ∀ w, SameSCC g.enabled s w → acc2 w = some k := by
        intro w hsw
        by_cases hws : w = s
        · rw [hws]
          exact hacc2s
        · have hreq : Reach g.required s w := (reach_inv g hinv s w).mpr hsw.2
        -- choose a `required` path from `s` to `w` through unindexed modules
          set A : Finset (Fin n) := Finset.univ.filter (fun t => acc t ≠ none)
            with hA
          have hAspec : ∀ t, t ∈ A ↔ acc t ≠ none := by
            intro t
            rw [hA, Finset.mem_filter]
            simp
          have havoid : ∀ t, SameSCC g.required s t → t ∉ A := by
            intro t ht
            rw [hAspec]
            have hEst : SameSCC g.enabled s t :=
              ⟨(reach_inv g hinv t s).mp ht.2, (reach_inv g hinv s t).mp ht.1⟩
            exact not_not_intro (f3 t hEst)
          have hpath0 : Relation.ReflTransGen
              (fun a b => Step g.required a b ∧ b ∉ A) s w :=
            reach_avoid_within g.required A s havoid w hreq
              ((reach_inv g hinv w s).mpr hsw.1)
          have hpath1 : Relation.ReflTransGen
              (fun a b => b ∈ g.required a ∧ acc b = none) s w := by
            refine Relation.ReflTransGen.mono ?_ hpath0
            intro a b hab
            refine ⟨hab.1, ?_⟩
            by_contra h
            exact hab.2 ((hAspec b).mpr h)
          have hpath2 : Relation.ReflTransGen
              (fun a b => (b ∈ g.required a ∧ acc b = none) ∧ b ≠ s) s w := by
            rcases reach_split_last _ s s w hpath1 with h | h
            · exact h
            · exact h
          rcases Relation.ReflTransGen.cases_head hpath2 with heq | ⟨m1, hm1, hm1p⟩
          · exact absurd heq.symm hws
          · rw [hacc2def]
            refine markRec_complete g.required _ k _ w ⟨m1, ?_, ?_, ?_⟩
            · exact List.mem_reverse.mpr hm1.1.1
            · rw [Function.update_noteq hm1.2]
              exact hm1.1.2
            · refine Relation.ReflTransGen.mono ?_ hm1p
              intro a b hab
              refine ⟨hab.1.1, ?_⟩
              rw [Function.update_noteq hab.2]
              exact hab.1.2
      have honly : ∀ v, ¬ SameSCC g.enabled s v → acc2 v = acc v := by
        intro v hv
        have hvs : v ≠ s := by
          intro hc
          refine hv ?_
          rw [hc]
          exact SameSCC.refl _ s
        have hclo : ∀ a b, SameSCC g.enabled s a → b ∈ g.required a →
            SameSCC g.enabled s b ∨ Function.update acc s (some k) b ≠ none := by
          intro a b ha hb
          by_cases hbs : b = s
          · right
            rw [hbs, Function.update_same]
            simp
          · by_cases hbn : acc b = none
            · left
              have hba : Reach g.enabled b a :=
                Relation.ReflTransGen.single ((hinv b a).mpr hb)
              exact hsccB b hbn (hba.trans ha.2)
            · right
              rw [Function.update_noteq hbs]
              exact hbn
        have hms : ∀ m ∈ (g.required s).reverse,
            SameSCC g.enabled s m ∨ Function.update acc s (some k) m ≠ none := by
          intro m hm
          exact hclo s m (SameSCC.refl _ s) (List.mem_reverse.mp hm)
        by_cases hch : acc2 v = Function.update acc s (some k) v
        · rw [hch, Function.update_noteq hvs]
        · exfalso
          rw [hacc2def] at hch
          exact hv (markRec_marks_only g.required _ _ hclo _ k _
            (fun x h => h) hms v hch)
      refine ih (P ++ [s]) (k + 1) acc2 ?_ ?_ ?_ ?_ ?_ ?_ ?_
      · rw [hsplit, List.append_assoc, List.singleton_append]
      · intro x hx
        rcases List.mem_append.mp hx with hx | hx
        · by_cases hsx : SameSCC g.enabled s x
          · rw [hcomp x hsx]
            simp
          · rw [honly x hsx]
            exact h1 x hx
        · have hxs : x = s := List.mem_singleton.mp hx
          subst hxs
          rw [hacc2s]
          simp
      · intro v hv
        by_cases hsv : SameSCC g.enabled s v
        · refine ⟨s, List.mem_append.mpr (Or.inr (List.mem_singleton.mpr rfl)),
            hsv.symm, ?_⟩
          intro w hws
          exact fidx2 w (f3 w hws.symm)
        · rw [honly v hsv] at hv
          obtain ⟨b, hbP, hvb, hmax⟩ := h2 v hv
          exact ⟨b, List.mem_append.mpr (Or.inl hbP), hvb, hmax⟩
      · intro v w hv hvw
        by_cases hsv : SameSCC g.enabled s v
        · rw [hcomp v hsv, hcomp w (hsv.trans hvw)]
        · have hsw : ¬ SameSCC g.enabled s w := fun hc => hsv (hc.trans hvw.symm)
          rw [honly v hsv] at hv
          rw [honly v hsv, honly w hsw]
          exact h3 v w hv hvw
      · intro v x hvx
        by_cases hsv : SameSCC g.enabled s v
        · rw [hcomp v hsv] at hvx
          have hx : k = x := by injection hvx
          omega
        · rw [honly v hsv] at hvx
          exact Nat.lt_succ_of_lt (h4 v x hvx)
      · intro v w hv hvw
        by_cases hsv : SameSCC g.enabled s v
        · by_cases hsw : SameSCC g.enabled s w
          · exact hsv.symm.trans hsw
          · exfalso
            rw [hcomp v hsv, honly w hsw] at hvw
            exact absurd (h4 w k hvw.symm) (lt_irrefl k)
        · by_cases hsw : SameSCC g.enabled s w
          · exfalso
            rw [honly v hsv, hcomp w hsw] at hvw
            exact absurd (h4 v k hvw) (lt_irrefl k)
          · rw [honly v hsv] at hv
            rw [honly v hsv, honly w hsw] at hvw
            exact h5 v w hv hvw
      · intro v w jv jw hjv hjw hreach
        by_cases hsv : SameSCC g.enabled s v
        · by_cases hsw : SameSCC g.enabled s w
          · rw [hcomp v hsv] at hjv
            rw [hcomp w hsw] at hjw
            have hv1 : k = jv := by injection hjv
            have hw1 : k = jw := by injection hjw
            omega
          · exfalso
            rw [honly w hsw] at hjw
            obtain ⟨b, hbP, hwb, _⟩ := h2 w (by rw [hjw]; simp)
            have hsw2 : Reach g.enabled s w := hsv.1.trans hreach
            obtain ⟨a, hsa, hba⟩ := hkey s w hsw2 b hwb
            have hanone : acc a = none := f3 a hsa
            have h1a : PO.indexOf a ≤ PO.indexOf s := fidx2 a hanone
            have h2a : PO.indexOf s < PO.indexOf b := fidx1 b hbP
            omega
        · by_cases hsw : SameSCC g.enabled s w
          · rw [honly v hsv] at hjv
            rw [hcomp w hsw] at hjw
            have hw1 : k = jw := by injection hjw
            have := h4 v jv hjv
            omega
          · rw [honly v hsv] at hjv
            rw [honly w hsw] at hjw
            exact h6 v w jv jw hjv hjw hreach
    · -- `s` already indexed: skip
      have hred : pass2Rec g.required (s :: rest2) k acc =
          pass2Rec g.required rest2 k acc := by
        show (if acc s = none then
            pass2Rec g.required rest2 (k + 1)
              (markRec g.required ((g.required s).reverse) k
                (Function.update acc s (some k)))
          else pass2Rec g.required rest2 k acc) = _
        rw [if_neg hs]
      rw [hred]
      refine ih (P ++ [s]) k acc ?_ ?_ ?_ h3 h4 h5 h6
      · rw [hsplit, List.append_assoc, List.singleton_append]
      · intro x hx
        rcases List.mem_append.mp hx with hx | hx
        · exact h1 x hx
        · have hxs : x = s := List.mem_singleton.mp hx
          subst hxs
          exact hs
      · intro v hv
        obtain ⟨b, hbP, hvb, hmax⟩ := h2 v hv
        exact ⟨b, List.mem_append.mpr (Or.inl hbP), hvb, hmax⟩

end Stelar

namespace Stelar

variable {n : Nat}

/-- Full correctness of the embedded `strongly_connected_index`
(`base.py` lines 570-626) on a catalog whose `required`/`enabled` edge
sets are mutually inverse: every module receives an index, two modules
receive the same index exactly when they are mutually `enabled`-reachable,
and indices are monotone along `enabled` reachability. -/
theorem strongly_connected_index_spec (g : Graph n) (hinv : EdgesInv g) :
    (∀ v, strongly_connected_index g v ≠ none) ∧
    (∀ v w, strongly_connected_index g v = strongly_connected_index g w ↔
      SameSCC g.enabled v w) ∧
    (∀ v w jv jw, strongly_connected_index g v = some jv →
      strongly_connected_index g w = some jw →
      Reach g.enabled v w → jv ≤ jw) := by
  obtain ⟨F, hF, hpass1, hPO, hnd⟩ := pass1_forest g
  have hlist : ((pass1 g).reverse).map Prod.fst = F.PO.reverse := by
    rw [hpass1, List.reverse_map, List.map_map]
    have : (Prod.fst ∘ fun x : Fin n => (x, x)) = id := rfl
    rw [this, List.map_id]
  have hkey := scc_reach_order g F hF hPO hnd
  have hmain := pass2Rec_invariant g hinv F.PO hnd hPO hkey
    F.PO.reverse [] 0 (fun _ => none)
    (by rw [List.nil_append])
    (by intro x hx; cases hx)
    (by intro v hv; exact absurd rfl hv)
    (by intro v w hv _; exact absurd rfl hv)
    (by intro v x hv; cases hv)
    (by intro v w hv _; exact absurd rfl hv)
    (by intro v w jv jw hv _ _; cases hv)
  have hsci : strongly_connected_index g =
      pass2Rec g.required F.PO.reverse 0 (fun _ => none) := by
    rw [strongly_connected_index, hlist]
  rw [hsci]
  exact hmain

end Stelar

namespace Stelar

variable {n : Nat}

/-- The six-module dependency graph of the test catalog
(`src/tests/conftest.py`): `m2.require(m1, m3, m5)`, `m3.require(m1)`,
`m4.require(m2)`, `m5.require(m4)`, `m6.require(m3, m5)`, with modules
`m1` … `m6` embedded as `0` … `5` and the `enabled` sets the inverse of
the `required` sets, as `Module.require` maintains. -/
def g6 : Graph 6 where
  required := fun i =>
    match i.val with
    | 1 => [0, 2, 4]
    | 2 => [0]
    | 3 => [1]
    | 4 => [3]
    | 5 => [2, 4]
    | _ => []
  enabled := fun i =>
    match i.val with
    | 0 => [1, 2]
    | 1 => [3]
    | 2 => [1, 5]
    | 3 => [4]
    | 4 => [1, 5]
    | _ => []

/-- C2: on a catalog with mutually inverse `required`/`enabled` edge sets,
after `strongly_connected_index` runs, whenever module `a` lies in the
transitive closure of module `b` over `required` edges (`a` is transitively
required by `b`), both modules carry indices and `scc_index(a) ≤
scc_index(b)`. -/
theorem scc_index_le_of_required (g : Graph n) (hinv : EdgesInv g)
    (a b : Fin n) (hab : a ∈ transitive_closure {b} g.required) :
    ∃ ja jb, strongly_connected_index g a = some ja ∧
      strongly_connected_index g b = some jb ∧ ja ≤ jb := by
  obtain ⟨htot, _, hord⟩ := strongly_connected_index_spec g hinv
  obtain ⟨s, hs, hreach⟩ := (transitive_closure_spec {b} g.required a).mp hab
  have hsb : s = b := Finset.mem_singleton.mp hs
  rw [hsb] at hreach
  have hEab : Reach g.enabled a b := (reach_inv g hinv b a).mp hreach
  obtain ⟨ja, hja⟩ := Option.ne_none_iff_exists'.mp (htot a)
  obtain ⟨jb, hjb⟩ := Option.ne_none_iff_exists'.mp (htot b)
  exact ⟨ja, jb, hja, hjb, hord a b ja jb hja hjb hEab⟩

theorem scc_index_le_of_required_witness :
    EdgesInv g6 ∧ (0 : Fin 6) ∈ transitive_closure {1} g6.required ∧
    (∃ ja jb, strongly_connected_index g6 0 = some ja ∧
      strongly_connected_index g6 1 = some jb ∧ ja ≤ jb) := by
  have hinv : EdgesInv g6 := by unfold EdgesInv; decide
  have hmem : (0 : Fin 6) ∈ transitive_closure {1} g6.required :=
    (transitive_closure_spec {1} g6.required 0).mpr
      ⟨1, Finset.mem_singleton_self 1,
        Relation.ReflTransGen.single (show Step g6.required 1 0 by unfold Step; decide)⟩
  exact ⟨hinv, hmem, scc_index_le_of_required g6 hinv 0 1 hmem⟩

/-- C3: on a catalog with mutually inverse `required`/`enabled` edge sets,
after `strongly_connected_index` runs, two modules carry the same index
exactly when each is reachable from the other over `required` edges
(equivalently, over `enabled` edges): they lie on a common dependency
cycle. -/
theorem scc_index_eq_iff_cycle (g : Graph n) (hinv : EdgesInv g) (a b : Fin n) :
    strongly_connected_index g a = strongly_connected_index g b ↔
      SameSCC g.required a b := by
  obtain ⟨_, hiff, _⟩ := strongly_connected_index_spec g hinv
  rw [hiff a b]
  constructor
  · intro h
    exact ⟨(reach_inv g hinv a b).mpr h.2, (reach_inv g hinv b a).mpr h.1⟩
  · intro h
    exact ⟨(reach_inv g hinv b a).mp h.2, (reach_inv g hinv a b).mp h.1⟩

theorem scc_index_eq_iff_cycle_witness :
    EdgesInv g6 ∧
    (strongly_connected_index g6 1 = strongly_connected_index g6 3 ↔
      SameSCC g6.required 1 3) :=
  ⟨by unfold EdgesInv; decide,
    scc_index_eq_iff_cycle g6 (by unfold EdgesInv; decide) 1 3⟩

end Stelar

namespace Stelar

variable {n : Nat}

/-- Parent-chain walk of `Module.top_module` (`base.py` lines 360-365),
with explicit fuel standing in for the finite tree height: follow parent
module links until a top-level module (no parent module) is reached. -/
def topOf (p : Fin n → Option (Fin n)) : Nat → Fin n → Fin n
  | 0, m => m
  | fuel + 1, m =>
    match p m with
    | none => m
    | some q => topOf p fuel q

/-- A catalog's module view: the dependency graph together with the
parent-module link of each module (`none` for top-level modules, which
hang under packages or the root). -/
structure CatalogG (n : Nat) extends Graph n where
  parentM : Fin n → Option (Fin n)

/-- `Module.top_module` (`base.py` lines 360-365): `n` fuel always
exhausts the parent chain of a catalog tree with `n` modules. -/
def top_module (c : CatalogG n) (m : Fin n) : Fin n := topOf c.parentM n m

/-- Modelled from the spec: a module group is "a top-level module plus all
its descendant sub-modules, treated as an atomic unit" — the method
`Module.all_submodules` called by `add_all_modules` (`goal.py` line 154)
has no definition in `src/`, so the group of a top module `t` is taken to
be every module whose top-level module is `t`. -/
def all_submodules (c : CatalogG n) (t : Fin n) : Finset (Fin n) :=
  Finset.univ.filter (fun m => top_module c m = t)

/-- `add_all_modules(S)` (`goal.py` lines 146-157): collect the distinct
top modules of the members of `S`, then take those tops together with
every member of each top's submodule group. -/
def add_all_modules (c : CatalogG n) (S : Finset (Fin n)) : Finset (Fin n) :=
  S.image (top_module c) ∪
    (S.image (top_module c)).biUnion (fun t => all_submodules c t)

/-- The modules a goal mapping assigns `true`
(`goal.py` line 102, `I = set(... if v)`). -/
def goalTrue (G : List (Fin n × Bool)) : Finset (Fin n) :=
  ((G.filter (fun p => p.2)).map Prod.fst).toFinset

/-- The modules a goal mapping assigns `false`
(`goal.py` line 105, `U = set(... if not v)`). -/
def goalFalse (G : List (Fin n × Bool)) : Finset (Fin n) :=
  ((G.filter (fun p => !p.2)).map Prod.fst).toFinset

/-- The sort key `m.scc_index` used by `logical_plan` after the SCC pass
has run (`goal.py` lines 126-128); on catalogs with mutually inverse edge
sets every module's index is populated, so the default never shows. -/
def sciKey (c : CatalogG n) (m : Fin n) : Nat :=
  (strongly_connected_index c.toGraph m).getD 0

/-- `Goal.logical_plan()` (`goal.py` lines 93-130): expand the `true` and
`false` goal sets by atomic groups and transitive closure over `required`
resp. `enabled` edges, fail on overlap, then emit the install list sorted
ascending and the uninstall list sorted descending by SCC index (a Python
`set` is linearised here in index order before the key sort). -/
def logical_plan (c : CatalogG n) (G : List (Fin n × Bool)) :
    Except (Finset (Fin n)) (List (Fin n) × List (Fin n)) :=
  if ((transitive_closure (add_all_modules c (goalTrue G)) c.required) ∩
      (transitive_closure (add_all_modules c (goalFalse G)) c.enabled)).Nonempty then
    Except.error
      ((transitive_closure (add_all_modules c (goalTrue G)) c.required) ∩
        (transitive_closure (add_all_modules c (goalFalse G)) c.enabled))
  else
    Except.ok
      (((List.finRange n).filter
          (fun m => m ∈ transitive_closure (add_all_modules c (goalTrue G)) c.required)).mergeSort
          (fun a b => decide (sciKey c a ≤ sciKey c b)),
        ((List.finRange n).filter
          (fun m => m ∈ transitive_closure (add_all_modules c (goalFalse G)) c.enabled)).mergeSort
          (fun a b => decide (sciKey c b ≤ sciKey c a)))

end Stelar

namespace Stelar

variable {n : Nat}

theorem transitive_closure_empty (f : Fin n → List (Fin n)) :
    transitive_closure ∅ f = ∅ := by
  unfold transitive_closure
  rw [Finset.sort_empty]
  simp [tcLoop]

/-- C1: whenever `logical_plan` returns a plan `(Il, Ul)`, the install list
`Il` holds exactly the modules reachable over `required` edges from the
atomic-group expansion of the modules the goal assigns `true`, sorted
ascending by SCC index, and the uninstall list `Ul` holds exactly the
modules reachable over `enabled` edges from the atomic-group expansion of
the modules assigned `false`, sorted descending by SCC index. -/
theorem logical_plan_spec (c : CatalogG n) (G : List (Fin n × Bool))
    (Il Ul : List (Fin n))
    (h : logical_plan c G = Except.ok (Il, Ul)) :
    (∀ x, x ∈ Il ↔ ∃ s ∈ add_all_modules c (goalTrue G), Reach c.required s x) ∧
    (∀ x, x ∈ Ul ↔ ∃ s ∈ add_all_modules c (goalFalse G), Reach c.enabled s x) ∧
    Il.Pairwise (fun a b => sciKey c a ≤ sciKey c b) ∧
    Ul.Pairwise (fun a b => sciKey c b ≤ sciKey c a) := by
  rw [logical_plan] at h
  split at h
  · exact absurd h (by simp)
  · rw [Except.ok.injEq, Prod.mk.injEq] at h
    obtain ⟨hIl, hUl⟩ := h
    subst hIl
    subst hUl
    refine ⟨?_, ?_, ?_, ?_⟩
    · intro x
      rw [List.mem_mergeSort, List.mem_filter, decide_eq_true_eq]
      rw [transitive_closure_spec]
      simp [List.mem_finRange]
    · intro x
      rw [List.mem_mergeSort, List.mem_filter, decide_eq_true_eq]
      rw [transitive_closure_spec]
      simp [List.mem_finRange]
    · refine List.Pairwise.imp ?_ (List.sorted_mergeSort ?_ ?_ _)
      · intro a b hab
        exact of_decide_eq_true hab
      · intro a b d h1 h2
        rw [decide_eq_true_eq] at h1 h2 ⊢
        omega
      · intro a b
        rw [Bool.or_eq_true, decide_eq_true_eq, decide_eq_true_eq]
        omega
    · refine List.Pairwise.imp ?_ (List.sorted_mergeSort ?_ ?_ _)
      · intro a b hab
        exact of_decide_eq_true hab
      · intro a b d h1 h2
        rw [decide_eq_true_eq] at h1 h2 ⊢
        omega
      · intro a b
        rw [Bool.or_eq_true, decide_eq_true_eq, decide_eq_true_eq]
        omega

/-- The test catalog as a `CatalogG`: the six modules of `g6`, all
top-level (no module has a parent module). -/
def c6 : CatalogG 6 where
  toGraph := g6
  parentM := fun _ => none

theorem logical_plan_spec_witness :
    ∃ Il Ul, logical_plan c6 [((2 : Fin 6), true)] = Except.ok (Il, Ul) ∧
      ((∀ x, x ∈ Il ↔
          ∃ s ∈ add_all_modules c6 (goalTrue [((2 : Fin 6), true)]),
            Reach c6.required s x) ∧
        Il.Pairwise (fun a b => sciKey c6 a ≤ sciKey c6 b)) := by
  have hU : transitive_closure
      (add_all_modules c6 (goalFalse [((2 : Fin 6), true)])) c6.enabled = ∅ := by
    have h0 : goalFalse [((2 : Fin 6), true)] = (∅ : Finset (Fin 6)) := rfl
    rw [h0]
    have h1 : add_all_modules c6 ∅ = ∅ := by simp [add_all_modules]
    rw [h1, transitive_closure_empty]
  have h : ∃ Il Ul, logical_plan c6 [((2 : Fin 6), true)] = Except.ok (Il, Ul) := by
    rw [logical_plan, hU, Finset.inter_empty, if_neg (by simp)]
    exact ⟨_, _, rfl⟩
  obtain ⟨Il, Ul, h⟩ := h
  have hmain := logical_plan_spec c6 [((2 : Fin 6), true)] Il Ul h
  exact ⟨Il, Ul, h, hmain.1, hmain.2.2.1⟩

end Stelar

namespace Stelar

variable {n : Nat}

/-- External effects of a reconciliation run: a `check_installed` query, an
`install` hook call, or an `uninstall` hook call on a module. -/
inductive Hook (n : Nat) : Type
  | check (m : Fin n)
  | install (m : Fin n)
  | uninstall (m : Fin n)

/-- The `Module.installed` property read (`base.py` lines 385-392): return
the cached tri-state flag, populating it from the external
`check_installed` hook (`env`) on first access and recording the query. -/
def installedRead (env : Fin n → Bool) (st : Fin n → Option Bool) (m : Fin n) :
    Bool × (Fin n → Option Bool) × List (Hook n) :=
  match st m with
  | some b => (b, st, [])
  | none => (env m, Function.update st m (some (env m)), [Hook.check m])

/-- Modelled from the spec: `Module.do_install`, called by `Goal.reconcile`
(`goal.py` line 141) but absent from `src/` — "query the cached installed
flag (lazily populated by invoking the module's `check_installed` hook on
first access); if already installed, skip; else invoke the module's
`install` hook, then mark the flag true". -/
def do_install (env : Fin n → Bool) (st : Fin n → Option Bool) (m : Fin n) :
    (Fin n → Option Bool) × List (Hook n) :=
  match installedRead env st m with
  | (true, st1, evs) => (st1, evs)
  | (false, st1, evs) => (Function.update st1 m (some true), evs ++ [Hook.install m])

/-- Modelled from the spec: `Module.do_uninstall`, called by
`Goal.reconcile` (`goal.py` line 143) but absent from `src/` —
"symmetrically for the uninstall list with `uninstall` and marking the
flag false". -/
def do_uninstall (env : Fin n → Bool) (st : Fin n → Option Bool) (m : Fin n) :
    (Fin n → Option Bool) × List (Hook n) :=
  match installedRead env st m with
  | (false, st1, evs) => (st1, evs)
  | (true, st1, evs) => (Function.update st1 m (some false), evs ++ [Hook.uninstall m])

/-- Run a per-module action along a list in order, threading the flag cache
and concatenating the emitted hook calls. -/
def applyAll (step : (Fin n → Option Bool) → Fin n →
      (Fin n → Option Bool) × List (Hook n))
    (st : Fin n → Option Bool) : List (Fin n) →
      (Fin n → Option Bool) × List (Hook n)
  | [] => (st, [])
  | m :: ms =>
    ((applyAll step (step st m).1 ms).1,
      (step st m).2 ++ (applyAll step (step st m).1 ms).2)

/-- `Goal.reconcile()` (`goal.py` lines 132-143): compute the logical plan
(propagating its conflict error), then run `do_install` over the install
list in order, then `do_uninstall` over the uninstall list in order. -/
def reconcile (c : CatalogG n) (G : List (Fin n × Bool)) (env : Fin n → Bool)
    (st : Fin n → Option Bool) :
    Except (Finset (Fin n)) ((Fin n → Option Bool) × List (Hook n)) :=
  match logical_plan c G with
  | .error e => .error e
  | .ok (Il, Ul) =>
    Except.ok
      ((applyAll (do_uninstall env) (applyAll (do_install env) st Il).1 Ul).1,
        (applyAll (do_install env) st Il).2 ++
          (applyAll (do_uninstall env) (applyAll (do_install env) st Il).1 Ul).2)

/-- C4: `reconcile` computes `logical_plan` (propagating a conflict error
unchanged), then processes the install list in order with `do_install` and
the uninstall list with `do_uninstall`; each `do_install` consults the
cached installed flag (populating it through the `check_installed` hook on
a `none` cache), skips an installed module, and otherwise invokes the
`install` hook and sets the flag to `true` — symmetrically for
`do_uninstall`. -/
theorem reconcile_spec (c : CatalogG n) (G : List (Fin n × Bool))
    (env : Fin n → Bool) (st : Fin n → Option Bool) :
    (∀ e, logical_plan c G = Except.error e →
      reconcile c G env st = Except.error e) ∧
    (∀ Il Ul, logical_plan c G = Except.ok (Il, Ul) →
      reconcile c G env st = Except.ok
        ((applyAll (do_uninstall env) (applyAll (do_install env) st Il).1 Ul).1,
          (applyAll (do_install env) st Il).2 ++
            (applyAll (do_uninstall env) (applyAll (do_install env) st Il).1 Ul).2)) ∧
    (∀ m, st m = some true → do_install env st m = (st, [])) ∧
    (∀ m, st m = some false →
      do_install env st m = (Function.update st m (some true), [Hook.install m])) ∧
    (∀ m, st m = none → env m = true →
      do_install env st m = (Function.update st m (some true), [Hook.check m])) ∧
    (∀ m, st m = none → env m = false →
      do_install env st m =
        (Function.update (Function.update st m (some false)) m (some true),
          [Hook.check m, Hook.install m])) ∧
    (∀ m, st m = some false → do_uninstall env st m = (st, [])) ∧
    (∀ m, st m = some true →
      do_uninstall env st m =
        (Function.update st m (some false), [Hook.uninstall m])) ∧
    (∀ m, st m = none → env m = false →
      do_uninstall env st m =
        (Function.update st m (some false), [Hook.check m])) ∧
    (∀ m, st m = none → env m = true →
      do_uninstall env st m =
        (Function.update (Function.update st m (some true)) m (some false),
          [Hook.check m, Hook.uninstall m])) := by
  refine ⟨?_, ?_, ?_, ?_, ?_, ?_, ?_, ?_, ?_, ?_⟩
  · intro e he
    simp [reconcile, he]
  · intro Il Ul hok
    simp [reconcile, hok]
  · intro m hm
    simp [do_install, installedRead, hm]
  · intro m hm
    simp [do_install, installedRead, hm]
  · intro m hm henv
    simp [do_install, installedRead, hm, henv]
  · intro m hm henv
    simp [do_install, installedRead, hm, henv]
  · intro m hm
    simp [do_uninstall, installedRead, hm]
  · intro m hm
    simp [do_uninstall, installedRead, hm]
  · intro m hm henv
    simp [do_uninstall, installedRead, hm, henv]
  · intro m hm henv
    simp [do_uninstall, installedRead, hm, henv]

/-- A one-module catalog with no edges and no parent links. -/
def c1 : CatalogG 1 where
  required := fun _ => []
  enabled := fun _ => []
  parentM := fun _ => none

theorem reconcile_spec_witness :
    (do_install (fun _ => false) (fun _ => none) (0 : Fin 1) =
      (Function.update (Function.update (fun _ => none) 0 (some false)) 0 (some true),
        [Hook.check 0, Hook.install 0])) ∧
    (do_uninstall (fun _ => false) (fun _ => none) (0 : Fin 1) =
      (Function.update (fun _ => none) 0 (some false), [Hook.check 0])) :=
  ⟨(reconcile_spec c1 [] (fun _ => false) (fun _ => none)).2.2.2.2.2.1 0 rfl rfl,
    (reconcile_spec c1 [] (fun _ => false) (fun _ => none)).2.2.2.2.2.2.2.2.1 0 rfl rfl⟩

end Stelar
